import Mathlib

/-!
Verification development for the expression-enumerator search core of
`src/app.js` (client-side port of a Python expression enumerator).

The JavaScript program is shallowly embedded here:
* JS numbers are modelled as exact rationals `ℚ`; the non-finite values
  (`NaN`/`Infinity`) that the program filters with `isFiniteNumber` are
  modelled by `Option ℚ` with `none` standing for a non-finite value.
* All rational arithmetic is routed through reducible wrappers (`qadd`,
  `qsub`, ...) built on `mkRat`, because the library's `Rat.add` etc. are
  irreducible; lemmas `qadd_eq`, ... connect them to the ordinary field
  operations.
* JS strings are `String`, with the handful of string operations the
  program uses (`trim`, `startsWith`, `endsWith`, `slice`, `<`)
  re-implemented over `List Char` exactly as JS behaves on ASCII text.
* Wall-clock time is abstracted by the index of the first `timeCheck`
  poll at which `nowSec() - start > maxSeconds` holds (the elapsed time
  is monotone, so the predicate is characterised by that first index);
  `none` means the budget never fires.
* The transcendental primitives `Math.sin`, ... have no exact rational
  counterpart; the embedding is parameterised by an arbitrary `Prims`
  record supplying them, and the domain guards of the program
  (`x > 0 ? Math.log(x) : NaN`, `safePow`, ...) are embedded faithfully
  around those parameters.
-/

namespace EnumApp

/-! ## Reducible rational arithmetic (kernel-computable wrappers) -/

/-- Reducible model of JS `a + b` on rationals. -/
def qadd (a b : ℚ) : ℚ := mkRat (a.num * b.den + b.num * a.den) (a.den * b.den)

/-- Reducible model of JS `a - b` on rationals. -/
def qsub (a b : ℚ) : ℚ := mkRat (a.num * b.den - b.num * a.den) (a.den * b.den)

/-- Reducible model of JS `a * b` on rationals. -/
def qmul (a b : ℚ) : ℚ := mkRat (a.num * b.num) (a.den * b.den)

/-- Reducible model of JS `a / b` on rationals (total; the program guards
the divisor, and `qdiv a 0 = 0` is never observed). -/
def qdiv (a b : ℚ) : ℚ := Rat.divInt (a.num * b.den) (a.den * b.num)

/-- Reducible model of JS unary `-a`. -/
def qneg (a : ℚ) : ℚ := mkRat (-a.num) a.den

/-- Reducible model of JS `Math.abs`. -/
def qabs (a : ℚ) : ℚ := if a < 0 then qneg a else a

/-- Embedding of a natural-number literal. -/
def qofN (n : ℕ) : ℚ := mkRat n 1

/-- Embedding of an integer literal. -/
def qofZ (n : ℤ) : ℚ := mkRat n 1

/-- Reducible floor (`Rat.floor_def`). -/
def qfloor (a : ℚ) : ℤ := a.num / a.den

/-- Reducible model of JS `Math.round` (round half towards `+∞`). -/
def qround (a : ℚ) : ℤ := qfloor (qadd a (mkRat 1 2))

/-- `a ^ n` for natural `n`, reducibly. -/
def qpowN (a : ℚ) : ℕ → ℚ
  | 0 => qofN 1
  | n + 1 => qmul a (qpowN a n)

/-- `a ^ k` for integer `k`, reducibly. -/
def qzpow (a : ℚ) : ℤ → ℚ
  | Int.ofNat n => qpowN a n
  | Int.negSucc n => qdiv (qofN 1) (qpowN a (n + 1))

theorem qadd_eq (a b : ℚ) : qadd a b = a + b := (Rat.add_def' a b).symm

theorem qsub_eq (a b : ℚ) : qsub a b = a - b := (Rat.sub_def' a b).symm

theorem qmul_eq (a b : ℚ) : qmul a b = a * b := by
  rw [Rat.mul_def, Rat.normalize_eq_mkRat, qmul]

theorem qdiv_eq (a b : ℚ) : qdiv a b = a / b := by
  rw [Rat.div_def' a b]; rfl

theorem qofN_eq (n : ℕ) : qofN n = (n : ℚ) := by
  rw [qofN, Rat.mkRat_one]; norm_cast

theorem qofZ_eq (n : ℤ) : qofZ n = (n : ℚ) := by
  rw [qofZ, Rat.mkRat_one]

theorem qneg_eq (a : ℚ) : qneg a = -a := by
  rw [Rat.neg_def]
  show mkRat (-a.num) a.den = _
  rw [Rat.mkRat_eq_divInt]

theorem qabs_eq (a : ℚ) : qabs a = |a| := by
  rw [qabs]
  split
  · rw [qneg_eq, abs_of_neg]; assumption
  · rw [abs_of_nonneg]; exact le_of_not_lt (by assumption)

theorem qfloor_eq (a : ℚ) : qfloor a = ⌊a⌋ := (Rat.floor_def).symm

theorem qhalf_eq : (mkRat 1 2 : ℚ) = 1 / 2 := by
  rw [Rat.mkRat_eq_divInt, Rat.divInt_eq_div]; norm_num

theorem qround_eq (a : ℚ) : qround a = round a := by
  rw [qround, qfloor_eq, qadd_eq, qhalf_eq, round_eq]

theorem qpowN_eq (a : ℚ) (n : ℕ) : qpowN a n = a ^ n := by
  induction n with
  | zero => rw [qpowN, pow_zero, qofN_eq]; norm_num
  | succ n ih => rw [qpowN, qmul_eq, ih, pow_succ, mul_comm]

theorem qzpow_eq (a : ℚ) (k : ℤ) : qzpow a k = a ^ k := by
  cases k with
  | ofNat n => rw [qzpow, qpowN_eq, Int.ofNat_eq_coe, zpow_natCast]
  | negSucc n => rw [qzpow, qdiv_eq, qpowN_eq, zpow_negSucc, qofN_eq, Nat.cast_one, one_div]

/-! ## JS string operations (over the character list of a `String`)

The program builds expression texts by concatenation and inspects them in
`is_direct_application` with `trim`, `startsWith`, `endsWith` and
`slice`; canonicalization compares texts with JS `<`/`>`.  All texts are
ASCII, where JS code-unit comparison coincides with comparison of Lean
`Char` values. -/

/-- JS `s.startsWith(p)` on character lists. -/
def startsWithCh : List Char → List Char → Bool
  | _, [] => true
  | [], _ :: _ => false
  | a :: s, b :: p => a = b && startsWithCh s p

/-- JS `s.endsWith(p)` on character lists. -/
def endsWithCh (s p : List Char) : Bool := startsWithCh s.reverse p.reverse

/-- JS `s.trim()` on character lists. -/
def trimCh (s : List Char) : List Char :=
  ((s.dropWhile Char.isWhitespace).reverse.dropWhile Char.isWhitespace).reverse

/-- JS string `<` (lexicographic on code units) on character lists. -/
def strLtCh : List Char → List Char → Bool
  | [], [] => false
  | [], _ :: _ => true
  | _ :: _, [] => false
  | a :: s, b :: t => if a < b then true else if b < a then false else strLtCh s t

/-- JS `l < r` on strings. -/
def strLtB (l r : String) : Bool := strLtCh l.data r.data

/-- Drop the last `n` characters (JS `slice(0, -n)` component). -/
def dropLastCh (s : List Char) (n : ℕ) : List Char := s.take (s.length - n)

/-- `src/app.js` lines 99-113, `is_direct_application(expr, funcName)`:
after trimming, strip one layer of enclosing parentheses (if the result
is nonempty), strip one leading `-(...)` wrapper (if the result is
nonempty), then test `startsWith(funcName + "(") && endsWith(")")`. -/
def is_direct_application (expr : String) (funcName : String) : Bool :=
  let s0 := trimCh expr.data
  let s1 :=
    if startsWithCh s0 ['('] && endsWithCh s0 [')'] then
      let inner := trimCh (dropLastCh (s0.drop 1) 1)
      if inner.isEmpty then s0 else inner
    else s0
  let s2 :=
    if startsWithCh s1 ['-', '('] && endsWithCh s1 [')'] then
      let inner := trimCh (dropLastCh (s1.drop 2) 1)
      if inner.isEmpty then s1 else inner
    else s1
  startsWithCh s2 (funcName.data ++ ['(']) && endsWithCh s2 [')']

/-- Depth scan: `true` iff the running parenthesis depth of `s` never
goes negative and ends at `0`. -/
def depthOk : List Char → ℤ → Bool
  | [], d => d = 0
  | c :: s, d =>
    if c = '(' then depthOk s (d + 1)
    else if c = ')' then d > 0 && depthOk s (d - 1)
    else depthOk s d

/-- Modelled from the spec: the outermost operation of an expression text
is an application of the function named `f` exactly when the text is
`f(u)` where the parenthesis after `f` matches the final character
(so `u` is a single balanced sub-expression).  This is the predicate the
spec's sentence "ln is never skipped on an expression whose outermost
operation is not an exp application" refers to; it is not part of the
program, which only performs the shallow string test
`is_direct_application`. -/
def isTrueApplication (f : String) (t : String) : Bool :=
  startsWithCh t.data (f.data ++ ['(']) && endsWithCh t.data [')'] &&
    depthOk (dropLastCh (t.data.drop (f.data.length + 1)) 1) 0

/-! ## The dedup key: `key_repr` (`src/app.js` lines 8-12)

`key_repr` renders a finite value with `toPrecision(17)`; the embedding
models this as the pair (signed 17-digit mantissa, decimal exponent) of
the rational value, with the decimal carry `10^17 ↦ 10^16, e+1`
normalised.  Rounding is half-up on the magnitude. -/

/-- Number of base-10 digits of `n` (fuel-driven, `digits10F n n`). -/
def digits10F : ℕ → ℕ → ℕ
  | 0, _ => 1
  | f + 1, n => if n < 10 then 1 else digits10F f (n / 10) + 1

/-- Number of base-10 digits of `n` (1 for `n = 0`). -/
def digits10 (n : ℕ) : ℕ := digits10F n n

/-- `⌊log10 (n/d)⌋` for positive naturals `n, d`. -/
def ratExp10 (n d : ℕ) : ℤ :=
  let dn := (digits10 n : ℤ)
  let dd := (digits10 d : ℤ)
  let t : ℤ := dn - dd
  let ge : Bool :=
    if dn ≥ dd then decide (n ≥ d * 10 ^ (digits10 n - digits10 d))
    else decide (n * 10 ^ (digits10 d - digits10 n) ≥ d)
  if ge then t else t - 1

/-- Rounded division `round(a / b)` for naturals (half-up). -/
def roundDiv (a b : ℕ) : ℕ := (2 * a + b) / (2 * b)

/-- Model of `key_repr` (line 8): the `toPrecision(17)` representation of
a finite value, as (signed mantissa, exponent). -/
def key_repr (q : ℚ) : ℤ × ℤ :=
  if q.num = 0 then (0, 0)
  else
    let n := q.num.natAbs
    let d := q.den
    let e := ratExp10 n d
    let f : ℤ := 16 - e
    let m := if f ≥ 0 then roundDiv (n * 10 ^ f.toNat) d else roundDiv n (d * 10 ^ (-f).toNat)
    let me := if m = 10 ^ 17 then ((10 ^ 16 : ℕ), e + 1) else (m, e)
    (if q.num < 0 then -(me.1 : ℤ) else (me.1 : ℤ), me.2)

/-! ## Operators and the numeric evaluator (`src/app.js` lines 14-46, 122-137) -/

/-- The transcendental/power primitives (`Math.sin`, ..., `Math.pow` on a
non-negative base).  The embedding is parameterised over them; every
claim proved generically holds for all choices, in particular for the
IEEE approximations the browser supplies (idealised to exact rationals). -/
structure Prims where
  psin : ℚ → ℚ
  pcos : ℚ → ℚ
  ptan : ℚ → ℚ
  pexp : ℚ → ℚ
  pln : ℚ → ℚ
  psqrt : ℚ → ℚ
  ppow : ℚ → ℚ → ℚ

/-- A dummy instantiation of the primitives, used for the concrete runs
(whose configurations never apply a transcendental primitive). -/
def dummyPrims : Prims := ⟨fun _ => 0, fun _ => 0, fun _ => 0, fun _ => 0,
  fun _ => 0, fun _ => 0, fun _ _ => 0⟩

/-- The unary function names (insertion order of `unaryFuncs`, lines
123-129). -/
inductive UnOp | usin | ucos | utan | uexp | uln | usqrt | uneg
deriving DecidableEq, Repr

/-- The binary operator names (insertion order of `binaryOps`, lines
131-137). -/
inductive BinOp | badd | bsub | bmul | bdiv | bpow
deriving DecidableEq, Repr

/-- `safePow` (lines 15-30): negative bases are restricted to exponents
within `1e-9` of an integer (the exponent is rounded), and any result of
magnitude above `1e300` (or non-finite) is invalid. -/
def safePow (P : Prims) (a b : ℚ) : Option ℚ :=
  if a < 0 then
    if qabs (qsub b (qofZ (qround b))) > mkRat 1 (10 ^ 9) then none
    else if qabs (qzpow a (qround b)) > mkRat (10 ^ 300) 1 then none
    else some (qzpow a (qround b))
  else
    if qabs (P.ppow a b) > mkRat (10 ^ 300) 1 then none
    else some (P.ppow a b)

/-- The unary function table (lines 123-129) wrapped in `safeEvalFunc`
(lines 32-39): `ln` is guarded by `x > 0`, `sqrt` by `x >= 0`; a
non-finite result would become `NaN`, which `none` models. -/
def evalUn (P : Prims) : UnOp → ℚ → Option ℚ
  | .usin, x => some (P.psin x)
  | .ucos, x => some (P.pcos x)
  | .utan, x => some (P.ptan x)
  | .uexp, x => some (P.pexp x)
  | .uln, x => if x > 0 then some (P.pln x) else none
  | .usqrt, x => if x ≥ 0 then some (P.psqrt x) else none
  | .uneg, x => some (qneg x)

/-- The binary operator table (lines 131-137) wrapped in `safeEvalBin`
(lines 40-46): `/` is invalid on a zero divisor, `^` is `safePow`. -/
def evalBin (P : Prims) : BinOp → ℚ → ℚ → Option ℚ
  | .badd, a, b => some (qadd a b)
  | .bsub, a, b => some (qsub a b)
  | .bmul, a, b => some (qmul a b)
  | .bdiv, a, b => if b = 0 then none else some (qdiv a b)
  | .bpow, a, b => safePow P a b

/-- Rendered operator name (for building expression texts). -/
def unName : UnOp → String
  | .usin => "sin"
  | .ucos => "cos"
  | .utan => "tan"
  | .uexp => "exp"
  | .uln => "ln"
  | .usqrt => "sqrt"
  | .uneg => "-"

/-- Rendered operator symbol (for building expression texts). -/
def binName : BinOp → String
  | .badd => "+"
  | .bsub => "-"
  | .bmul => "*"
  | .bdiv => "/"
  | .bpow => "^"

/-! ## Configuration and search state -/

/-- `cfg.keep_side` (line 144). -/
inductive KeepSide | greater | less | both
deriving DecidableEq, Repr

/-- The search configuration reaching `generateEnumerations` (lines
117-144), after the UI defaults have been applied (`epsilon` is the
field value, `1e-12` in every run the page starts). -/
structure Config where
  N : ℕ
  target : ℚ
  consts : List (String × ℚ)
  use_sin : Bool
  use_cos : Bool
  use_tan : Bool
  use_exp : Bool
  use_ln : Bool
  use_sqrt : Bool
  use_neg : Bool
  use_pow : Bool
  keep_side : KeepSide
  max_cost : ℕ
  keep_top : ℕ
  epsilon : ℚ
deriving DecidableEq

/-- The enabled unary functions, in the insertion order of `unaryFuncs`
(lines 123-129). -/
def unaryList (cfg : Config) : List UnOp :=
  (if cfg.use_sin then [UnOp.usin] else []) ++
  (if cfg.use_cos then [UnOp.ucos] else []) ++
  (if cfg.use_tan then [UnOp.utan] else []) ++
  (if cfg.use_exp then [UnOp.uexp] else []) ++
  (if cfg.use_ln then [UnOp.uln] else []) ++
  (if cfg.use_sqrt then [UnOp.usqrt] else []) ++
  (if cfg.use_neg then [UnOp.uneg] else [])

/-- The enabled binary operators, in the insertion order of `binaryOps`
(lines 131-137). -/
def binList (cfg : Config) : List BinOp :=
  [BinOp.badd, BinOp.bsub, BinOp.bmul, BinOp.bdiv] ++
  (if cfg.use_pow then [BinOp.bpow] else [])

/-- A memo/results entry `{v, expr}` (`none` = non-finite value). -/
structure Entry where
  v : Option ℚ
  expr : String
deriving DecidableEq, Repr

/-- A heap item `{err, v, expr}` (line 148; only finite values reach the
heap). -/
structure Cand where
  err : ℚ
  v : ℚ
  expr : String
deriving DecidableEq, Repr

/-- The mutable state of one `generateEnumerations` run: the heap array
`bestHeap.data`, the dedup set `savedValues` (as a list of keys),
`exprCountTotal`, the `stopped` flag, the number of `timeCheck` polls
performed so far, and the memo table (association list, insertion
order). -/
structure SearchState where
  heap : List Cand
  saved : List (ℤ × ℤ)
  exprCount : ℕ
  stopped : Bool
  poll : ℕ
  memo : List (ℕ × List Entry)
deriving DecidableEq

/-- The state at the start of a run. -/
def initState : SearchState := ⟨[], [], 0, false, 0, []⟩

/-- Association-list lookup for the memo table (`memo.get`). -/
def memoLookup : List (ℕ × List Entry) → ℕ → Option (List Entry)
  | [], _ => none
  | (c, r) :: rest, cost => if c = cost then some r else memoLookup rest cost

/-! ## The bounded max-heap (`src/app.js` lines 48-96)

`BinaryHeap` with comparator `(a, b) => sign(a.err - b.err)`; the sift
loops are embedded with explicit fuel (the fuel arguments given at the
call sites strictly dominate the number of iterations the JS loops can
make, so the embedding computes the same function). -/

/-- Placeholder for out-of-range reads (never observed at the call
sites, which stay in bounds). -/
def dCand : Cand := ⟨0, 0, ""⟩

/-- `[a[i], a[j]] = [a[j], a[i]]`. -/
def swapL (a : List Cand) (i j : ℕ) : List Cand :=
  (a.set i (a.getD j dCand)).set j (a.getD i dCand)

/-- `_siftUp` (lines 73-82): bubble the item at `i` up while it is
strictly greater (by `err`) than its parent. -/
def siftUpF : ℕ → List Cand → ℕ → List Cand
  | 0, a, _ => a
  | f + 1, a, i =>
    if i = 0 then a
    else if (a.getD ((i - 1) / 2) dCand).err < (a.getD i dCand).err then
      siftUpF f (swapL a i ((i - 1) / 2)) ((i - 1) / 2)
    else a

/-- `push` (lines 53-56). -/
def heapPush (a : List Cand) (item : Cand) : List Cand :=
  siftUpF (a.length + 1) (a ++ [item]) a.length

/-- The intermediate `largest` after the left-child comparison of one
`_siftDown` iteration (line 88). -/
def sdChild (a : List Cand) (i : ℕ) : ℕ :=
  if 2 * i + 1 < a.length ∧ (a.getD i dCand).err < (a.getD (2 * i + 1) dCand).err then
    2 * i + 1
  else i

/-- The index `largest` computed by one `_siftDown` iteration (lines
87-89): the in-range child strictly greater (by `err`) than the current
candidate, if any. -/
def sdTarget (a : List Cand) (i : ℕ) : ℕ :=
  if 2 * i + 2 < a.length ∧ (a.getD (sdChild a i) dCand).err < (a.getD (2 * i + 2) dCand).err then
    2 * i + 2
  else sdChild a i

/-- `_siftDown` (lines 83-95): sink the item at `i` while a child is
strictly greater (by `err`). -/
def siftDownF : ℕ → List Cand → ℕ → List Cand
  | 0, a, _ => a
  | f + 1, a, i =>
    if sdTarget a i = i then a
    else siftDownF f (swapL a i (sdTarget a i)) (sdTarget a i)

/-- `replace` (lines 67-72): overwrite the root and sift down (the
evicted root is read off at the call site). -/
def heapReplace (a : List Cand) (item : Cand) : List Cand :=
  siftDownF a.length (a.set 0 item) 0

/-! ## The selector `considerValue` (`src/app.js` lines 164-186) -/

/-- One `considerValue(v, exprBuilder)` call.  Non-finite values and
values failing the keep-side filter are discarded before the counter
increments; then the value is deduplicated by `key_repr`; then it is
pushed (heap not yet full) or replaces the current worst entry when its
error is strictly smaller. -/
def considerValue (cfg : Config) (v : Option ℚ) (expr : String) (st : SearchState) :
    SearchState :=
  match v with
  | none => st
  | some v =>
    if cfg.keep_side = KeepSide.greater ∧ ¬(v > qadd cfg.target cfg.epsilon) then st
    else if cfg.keep_side = KeepSide.less ∧ ¬(v < qsub cfg.target cfg.epsilon) then st
    else if key_repr v ∈ st.saved then { st with exprCount := st.exprCount + 1 }
    else if st.heap.length < cfg.keep_top then
      { st with
        exprCount := st.exprCount + 1,
        heap := heapPush st.heap ⟨qabs (qsub cfg.target v), v, expr⟩,
        saved := key_repr v :: st.saved }
    else
      match st.heap with
      | [] => { st with exprCount := st.exprCount + 1 }
      | worst :: _ =>
        if qabs (qsub cfg.target v) < worst.err then
          { st with
            exprCount := st.exprCount + 1,
            heap := heapReplace st.heap ⟨qabs (qsub cfg.target v), v, expr⟩,
            saved := key_repr v :: st.saved.erase (key_repr worst.v) }
        else { st with exprCount := st.exprCount + 1 }

/-- Fold `considerValue` over a list of generated entries (the per-item
`considerValue` calls of a loop body, in order). -/
def considerFold (cfg : Config) (st : SearchState) : List Entry → SearchState
  | [] => st
  | e :: rest => considerFold cfg (considerValue cfg e.v e.expr st) rest

/-! ## Budget polling (`src/app.js` lines 157-162)

`timeCheck` compares the elapsed wall clock against `maxSeconds` and
throws `Timeout` when exceeded.  Elapsed time is monotone, so a run's
clock is abstracted by the index `d` of the first poll at which the
comparison is true (`none`: never). -/

/-- Does the poll with index `i` observe an exceeded budget? -/
def fires (d : Option ℕ) (i : ℕ) : Bool :=
  match d with
  | none => false
  | some p => decide (p ≤ i)

/-- One `timeCheck()` call: advances the poll counter and reports (and
records in `stopped`) whether the budget fired, which the caller turns
into the thrown `Timeout`. -/
def timeCheck (d : Option ℕ) (st : SearchState) : SearchState × Bool :=
  let f := fires d st.poll
  ({ st with poll := st.poll + 1, stopped := st.stopped || f }, f)

/-! ## Expression generation (`src/app.js` lines 191-280) -/

/-- The cost-1 atoms (lines 196-210): the integers `1..N` (text = the
decimal literal) followed by the named constants (text = the name). -/
def atomEntries (cfg : Config) : List Entry :=
  (List.range cfg.N).map (fun i => ⟨some (qofN (i + 1)), Nat.repr (i + 1)⟩) ++
  cfg.consts.map (fun c => ⟨some c.2, c.1⟩)

/-- The rendered text of a unary application (lines 226-228). -/
def mkUnExpr (u : UnOp) (e : String) : String :=
  match u with
  | .uneg => "-(" ++ e ++ ")"
  | _ => unName u ++ "(" ++ e ++ ")"

/-- The cancellation pruning of the unary loop (lines 222-223): skip
`ln` over a direct `exp` application and `exp` over a direct `ln`
application. -/
def unarySkip (u : UnOp) (e : String) : Bool :=
  match u with
  | .uln => is_direct_application e "exp"
  | .uexp => is_direct_application e "ln"
  | _ => false

/-- The unary expansions generated from one finite item (the inner
`fname` loop, lines 220-231), in table order. -/
def unaryCombos (P : Prims) (cfg : Config) (x : ℚ) (e : String) : List Entry :=
  (unaryList cfg).filterMap fun u =>
    if unarySkip u e then none else some ⟨evalUn P u x, mkUnExpr u e⟩

/-- The rendered text of a binary combination (lines 263, 269). -/
def binText (l : String) (op : BinOp) (r : String) : String :=
  "(" ++ l ++ " " ++ binName op ++ " " ++ r ++ ")"

/-- Identity elimination (lines 249-252): for a pair `(L, R)` the
operators `+`/`-` are skipped when `|R.v| ≤ epsilon` and `*`/`/` when
`|R.v - 1| ≤ epsilon`; `^` is never skipped. -/
def identitySkip (op : BinOp) (rv : ℚ) (eps : ℚ) : Bool :=
  match op with
  | .badd => qabs rv ≤ eps
  | .bsub => qabs rv ≤ eps
  | .bmul => qabs (qsub rv (qofN 1)) ≤ eps
  | .bdiv => qabs (qsub rv (qofN 1)) ≤ eps
  | .bpow => false

/-- Is the operator commutative (line 254)? -/
def isCommutative (op : BinOp) : Bool :=
  op = BinOp.badd || op = BinOp.bmul

/-- The combinations one operator generates from the ordered pair
`(L, R)` (lines 246-272): none if identity-skipped; the canonical order
`L ∘ R` unless a commutative operator sees `(L.v, L.expr)` beyond
`(R.v, R.expr)` lexicographically; and additionally `R ∘ L` for
non-commutative operators. -/
def opGen (P : Prims) (eps : ℚ) (op : BinOp) (lv : ℚ) (le : String) (rv : ℚ)
    (re : String) : List Entry :=
  if identitySkip op rv eps then []
  else
    let doFirst := !(isCommutative op && (decide (rv < lv) || (decide (lv = rv) && strLtB re le)))
    (if doFirst then [⟨evalBin P op lv rv, binText le op re⟩] else []) ++
    (if !isCommutative op then [⟨evalBin P op rv lv, binText re op le⟩] else [])

/-- All combinations generated from the pair `(L, R)` over the enabled
operator table, in table order (the `opname` loop, lines 246-273). -/
def pairGen (P : Prims) (cfg : Config) (lv : ℚ) (le : String) (rv : ℚ) (re : String) :
    List Entry :=
  (binList cfg).flatMap fun op => opGen P cfg.epsilon op lv le rv re

/-- The combinations of one `(leftArr, rightArr)` split with no polling:
the pure value of the nested `L`/`R` loops (lines 239-275), used to
state generation-level claims.  Pairs with a non-finite member generate
nothing. -/
def combineAll (P : Prims) (cfg : Config) (ls rs : List Entry) : List Entry :=
  ls.flatMap fun l =>
    rs.flatMap fun r =>
      match l.v, r.v with
      | some lv, some rv => pairGen P cfg lv l.expr rv r.expr
      | _, _ => []

/-! ## The enumeration loops, with polling and the `Timeout` throw

Each loop returns the updated state and either `ok` (the entries it
appended to `results`) or `error ()` (the `Timeout` exception
propagating; the local `results` of the interrupted call are lost but
all `considerValue` effects persist, exactly like the JS mutable
closure state). -/

/-- The cost-1 atom loops (lines 197-210): per entry one poll, one
`considerValue`, one `results.push`. -/
def atomsLoop (cfg : Config) (d : Option ℕ) :
    List Entry → SearchState → SearchState × Except Unit (List Entry)
  | [], st => (st, Except.ok [])
  | e :: rest, st =>
    if (timeCheck d st).2 then ((timeCheck d st).1, Except.error ())
    else
      match atomsLoop cfg d rest (considerValue cfg e.v e.expr (timeCheck d st).1) with
      | (st2, Except.ok es) => (st2, Except.ok (e :: es))
      | (st2, Except.error u) => (st2, Except.error u)

/-- The unary expansion loop over the previous level (lines 217-232):
per item one poll; non-finite items are skipped; otherwise the table's
combos are generated, each fed to `considerValue` and appended. -/
def unaryLoop (P : Prims) (cfg : Config) (d : Option ℕ) :
    List Entry → SearchState → SearchState × Except Unit (List Entry)
  | [], st => (st, Except.ok [])
  | e :: rest, st =>
    if (timeCheck d st).2 then ((timeCheck d st).1, Except.error ())
    else
      match e.v with
      | none => unaryLoop P cfg d rest (timeCheck d st).1
      | some x =>
        match unaryLoop P cfg d rest
            (considerFold cfg (timeCheck d st).1 (unaryCombos P cfg x e.expr)) with
        | (st2, Except.ok es) => (st2, Except.ok (unaryCombos P cfg x e.expr ++ es))
        | (st2, Except.error u) => (st2, Except.error u)

/-- The inner `R` loop of the binary combiner (lines 241-274): per pair
one poll; pairs with a non-finite member are skipped after the poll. -/
def rightLoop (P : Prims) (cfg : Config) (d : Option ℕ) (l : Entry) :
    List Entry → SearchState → SearchState × Except Unit (List Entry)
  | [], st => (st, Except.ok [])
  | r :: rest, st =>
    if (timeCheck d st).2 then ((timeCheck d st).1, Except.error ())
    else
      match l.v, r.v with
      | some lv, some rv =>
        match rightLoop P cfg d l rest
            (considerFold cfg (timeCheck d st).1 (pairGen P cfg lv l.expr rv r.expr)) with
        | (st2, Except.ok es) => (st2, Except.ok (pairGen P cfg lv l.expr rv r.expr ++ es))
        | (st2, Except.error u) => (st2, Except.error u)
      | _, _ => rightLoop P cfg d l rest (timeCheck d st).1

/-- The outer `L` loop of the binary combiner (lines 239-275): per left
item one poll, then the inner loop. -/
def leftLoop (P : Prims) (cfg : Config) (d : Option ℕ) (rs : List Entry) :
    List Entry → SearchState → SearchState × Except Unit (List Entry)
  | [], st => (st, Except.ok [])
  | l :: rest, st =>
    if (timeCheck d st).2 then ((timeCheck d st).1, Except.error ())
    else
      match rightLoop P cfg d l rs (timeCheck d st).1 with
      | (st1, Except.error u) => (st1, Except.error u)
      | (st1, Except.ok gs) =>
        match leftLoop P cfg d rs rest st1 with
        | (st2, Except.ok es) => (st2, Except.ok (gs ++ es))
        | (st2, Except.error u) => (st2, Except.error u)

/-- The cost splits `a_cost + b_cost + 1 = cost` of the binary combiner
(line 235): `a_cost` ranges over `1..cost-2`. -/
def splitPairs (cost : ℕ) : List (ℕ × ℕ) :=
  (List.range' 1 (cost - 2)).map fun a => (a, cost - 1 - a)

/-- The split loop (lines 235-276), parameterised by the enumerator used
for the recursive `enumerateCost` calls (which hit the memo table). -/
def splitsLoop (P : Prims) (cfg : Config) (d : Option ℕ)
    (enum : ℕ → SearchState → SearchState × Except Unit (List Entry)) :
    List (ℕ × ℕ) → SearchState → SearchState × Except Unit (List Entry)
  | [], st => (st, Except.ok [])
  | (a, b) :: rest, st =>
    match enum a st with
    | (st1, Except.error u) => (st1, Except.error u)
    | (st1, Except.ok ls) =>
      match enum b st1 with
      | (st2, Except.error u) => (st2, Except.error u)
      | (st2, Except.ok rs) =>
        match leftLoop P cfg d rs ls st2 with
        | (st3, Except.error u) => (st3, Except.error u)
        | (st3, Except.ok gs) =>
          match splitsLoop P cfg d enum rest st3 with
          | (st4, Except.ok es) => (st4, Except.ok (gs ++ es))
          | (st4, Except.error u) => (st4, Except.error u)

/-- The body of `enumerateCost` (lines 191-280) with the recursive calls
abstracted: return `[]` if stopped; return the memoised level if
present; poll; produce the atoms (cost 1) or the unary expansions of
`enumerateCost (cost-1)` followed by the binary combinations of every
split; record the level in the memo table. -/
def enumBody (P : Prims) (cfg : Config) (d : Option ℕ)
    (enumPrev : ℕ → SearchState → SearchState × Except Unit (List Entry))
    (cost : ℕ) (st : SearchState) : SearchState × Except Unit (List Entry) :=
  if st.stopped then (st, Except.ok [])
  else
    match memoLookup st.memo cost with
    | some r => (st, Except.ok r)
    | none =>
      if (timeCheck d st).2 then ((timeCheck d st).1, Except.error ())
      else if cost = 1 then
        match atomsLoop cfg d (atomEntries cfg) (timeCheck d st).1 with
        | (st1, Except.error u) => (st1, Except.error u)
        | (st1, Except.ok rs) =>
          ({ st1 with memo := st1.memo ++ [(cost, rs)] }, Except.ok rs)
      else
        match enumPrev (cost - 1) (timeCheck d st).1 with
        | (st1, Except.error u) => (st1, Except.error u)
        | (st1, Except.ok prev) =>
          match unaryLoop P cfg d prev st1 with
          | (st2, Except.error u) => (st2, Except.error u)
          | (st2, Except.ok r1) =>
            match splitsLoop P cfg d enumPrev (splitPairs cost) st2 with
            | (st3, Except.error u) => (st3, Except.error u)
            | (st3, Except.ok r2) =>
              ({ st3 with memo := st3.memo ++ [(cost, r1 ++ r2)] },
                Except.ok (r1 ++ r2))

/-- The recursive `enumerateCost`, unrolled on a fuel that bounds the
recursion depth (every recursive call is on a strictly smaller cost, so
fuel `cost` suffices; `Nat.rec` keeps the definition kernel-computable). -/
def enumerateCostF (P : Prims) (cfg : Config) (d : Option ℕ) (fuel : ℕ) :
    ℕ → SearchState → SearchState × Except Unit (List Entry) :=
  Nat.rec (fun _ st => (st, Except.ok []))
    (fun _ ih => enumBody P cfg d ih) fuel

/-- `enumerateCost(cost)` as called by the driver. -/
def enumerateCost (P : Prims) (cfg : Config) (d : Option ℕ) (cost : ℕ)
    (st : SearchState) : SearchState × Except Unit (List Entry) :=
  enumerateCostF P cfg d cost cost st

/-! ## The driver and result read-out (`src/app.js` lines 283-299) -/

/-- The driver loop `for (cost = 1; cost <= maxCost; cost++)`: one poll
per level before `enumerateCost`; the thrown `Timeout` is caught and the
loop abandoned with all accumulated state intact (the `catch` block of
line 291). -/
def driverLoop (P : Prims) (cfg : Config) (d : Option ℕ) :
    List ℕ → SearchState → SearchState
  | [], st => st
  | c :: rest, st =>
    if (timeCheck d st).2 then (timeCheck d st).1
    else
      match enumerateCost P cfg d c (timeCheck d st).1 with
      | (st1, Except.ok _) => driverLoop P cfg d rest st1
      | (st1, Except.error _) => st1

/-- The driver run to an explicit number of levels: levels `1..k` from
the initial state. -/
def runSearchTo (P : Prims) (cfg : Config) (d : Option ℕ) (k : ℕ) : SearchState :=
  driverLoop P cfg d (List.range' 1 k) initState

/-- The full search: run the driver over levels `1..max_cost` from the
initial state. -/
def runSearch (P : Prims) (cfg : Config) (d : Option ℕ) : SearchState :=
  runSearchTo P cfg d cfg.max_cost

/-- Stable insertion of a candidate into an error-sorted list (an
element is placed after every element of strictly smaller error and
before the first of greater-or-equal error). -/
def insCand (x : Cand) : List Cand → List Cand
  | [] => [x]
  | y :: rest => if y.err < x.err then y :: insCand x rest else x :: y :: rest

/-- The final sort (line 298): JS `Array.prototype.sort` with comparator
`(a, b) => a.err - b.err` is a stable ascending sort by error; any
stable sort computes the same list, here insertion sort. -/
def sortByErr (l : List Cand) : List Cand := l.foldr insCand []

/-- The value returned to the caller (lines 298-299). -/
structure RunOut where
  results : List Cand
  exprCountTotal : ℕ
  maxLevel : ℕ
deriving DecidableEq

/-- `generateEnumerations(cfg, onProgress)` (lines 117-300): run the
search, then read out the heap sorted ascending by error together with
the summary statistics. -/
def generateEnumerations (P : Prims) (cfg : Config) (d : Option ℕ) : RunOut :=
  ⟨sortByErr (runSearch P cfg d).heap, (runSearch P cfg d).exprCount,
    min cfg.max_cost (runSearch P cfg d).memo.length⟩

/-! ## Heap lemmas: the sift operations permute the array -/

theorem getD_cons_set_perm :
    ∀ (t : List Cand) (j : ℕ), j < t.length → ∀ a : Cand,
      (t.getD j dCand :: t.set j a).Perm (a :: t) := by
  intro t
  induction t with
  | nil => intro j hj; exact absurd hj (Nat.not_lt_zero j)
  | cons y t ih =>
    intro j hj a
    cases j with
    | zero => exact List.Perm.swap a y t
    | succ s =>
      have hs : s < t.length := Nat.lt_of_succ_lt_succ hj
      show (t.getD s dCand :: y :: t.set s a).Perm (a :: y :: t)
      exact ((List.Perm.swap y (t.getD s dCand) _).trans
        ((ih s hs a).cons y)).trans (List.Perm.swap a y t)

theorem swapL_perm :
    ∀ (a : List Cand) (i j : ℕ), i < a.length → j < a.length → (swapL a i j).Perm a := by
  intro a
  induction a with
  | nil => intro i j hi _; exact absurd hi (Nat.not_lt_zero i)
  | cons x t ih =>
    intro i j hi hj
    cases i with
    | zero =>
      cases j with
      | zero => exact List.Perm.refl _
      | succ s =>
        have hs : s < t.length := Nat.lt_of_succ_lt_succ hj
        show (t.getD s dCand :: t.set s x).Perm (x :: t)
        exact getD_cons_set_perm t s hs x
    | succ s =>
      cases j with
      | zero =>
        have hs : s < t.length := Nat.lt_of_succ_lt_succ hi
        show (t.getD s dCand :: t.set s x).Perm (x :: t)
        exact getD_cons_set_perm t s hs x
      | succ u =>
        show (x :: swapL t s u).Perm (x :: t)
        exact (ih s u (Nat.lt_of_succ_lt_succ hi) (Nat.lt_of_succ_lt_succ hj)).cons x

theorem swapL_length (a : List Cand) (i j : ℕ) : (swapL a i j).length = a.length := by
  simp [swapL]

theorem siftUpF_perm :
    ∀ (f : ℕ) (a : List Cand) (i : ℕ), i < a.length → (siftUpF f a i).Perm a := by
  intro f
  induction f with
  | zero => intro a i _; exact List.Perm.refl a
  | succ f ih =>
    intro a i hi
    rw [siftUpF]
    split
    · exact List.Perm.refl a
    · split
      · rename_i hne _
        have hp : (i - 1) / 2 < i :=
          Nat.lt_of_le_of_lt (Nat.div_le_self _ _)
            (Nat.sub_lt (Nat.pos_of_ne_zero hne) Nat.one_pos)
        have hp2 : (i - 1) / 2 < (swapL a i ((i - 1) / 2)).length := by
          rw [swapL_length]; exact hp.trans hi
        exact (ih _ _ hp2).trans (swapL_perm a i _ hi (hp.trans hi))
      · exact List.Perm.refl a

theorem heapPush_perm (a : List Cand) (item : Cand) :
    (heapPush a item).Perm (item :: a) := by
  have h1 : (siftUpF (a.length + 1) (a ++ [item]) a.length).Perm (a ++ [item]) :=
    siftUpF_perm _ _ _ (by simp)
  exact h1.trans (List.perm_append_singleton item a)

theorem sdChild_range (a : List Cand) (i : ℕ) (h : sdChild a i ≠ i) :
    i < sdChild a i ∧ sdChild a i < a.length := by
  rw [sdChild] at h ⊢
  split at h
  · rename_i h1
    rw [if_pos h1]
    exact ⟨by omega, h1.1⟩
  · exact absurd rfl h

theorem sdTarget_range (a : List Cand) (i : ℕ) (h : sdTarget a i ≠ i) :
    i < sdTarget a i ∧ sdTarget a i < a.length := by
  rw [sdTarget] at h ⊢
  split at h
  · rename_i h2
    rw [if_pos h2]
    exact ⟨by omega, h2.1⟩
  · rename_i h2
    rw [if_neg h2]
    exact sdChild_range a i h

theorem siftDownF_perm :
    ∀ (f : ℕ) (a : List Cand) (i : ℕ), (siftDownF f a i).Perm a := by
  intro f
  induction f with
  | zero => intro a i; exact List.Perm.refl a
  | succ f ih =>
    intro a i
    rw [siftDownF]
    split
    · exact List.Perm.refl a
    · rename_i hm2
      obtain ⟨h1, h2⟩ := sdTarget_range a i hm2
      exact (ih _ _).trans (swapL_perm a i _ (h1.trans h2) h2)

theorem heapReplace_perm (w : Cand) (t : List Cand) (item : Cand) :
    (heapReplace (w :: t) item).Perm (item :: t) := by
  have : (w :: t).set 0 item = item :: t := rfl
  rw [heapReplace, this]
  exact siftDownF_perm _ _ _

/-! ## The ResultSet invariant (claim C5) and worst-error monotonicity
(claim C3) of a single `considerValue` call -/

/-- The dedup keys of the heap entries. -/
def heapKeys (l : List Cand) : List (ℤ × ℤ) := l.map fun c => key_repr c.v

/-- The ResultSet invariant: at most `keep_top` entries, pairwise
distinct dedup keys, and every entry's key recorded in `savedValues`. -/
def Inv (cfg : Config) (st : SearchState) : Prop :=
  st.heap.length ≤ cfg.keep_top ∧ (heapKeys st.heap).Nodup ∧
    ∀ k ∈ heapKeys st.heap, k ∈ st.saved

instance (cfg : Config) (st : SearchState) : Decidable (Inv cfg st) := by
  rw [Inv]; infer_instance

theorem considerValue_Inv (cfg : Config) (v : Option ℚ) (e : String) (st : SearchState)
    (h : Inv cfg st) : Inv cfg (considerValue cfg v e st) := by
  obtain ⟨hlen, hnd, hsub⟩ := h
  cases v with
  | none => exact ⟨hlen, hnd, hsub⟩
  | some v =>
    rw [considerValue]
    split
    · exact ⟨hlen, hnd, hsub⟩
    split
    · exact ⟨hlen, hnd, hsub⟩
    split
    · exact ⟨hlen, hnd, hsub⟩
    split
    · -- push branch: the heap is not yet full and the key is fresh
      rename_i hkey hroom
      have hperm : (heapPush st.heap ⟨qabs (qsub cfg.target v), v, e⟩).Perm
          (⟨qabs (qsub cfg.target v), v, e⟩ :: st.heap) := heapPush_perm _ _
      have hkperm : (heapKeys (heapPush st.heap ⟨qabs (qsub cfg.target v), v, e⟩)).Perm
          (key_repr v :: heapKeys st.heap) := hperm.map _
      refine ⟨?_, ?_, ?_⟩
      · simpa [hperm.length_eq] using hroom
      · rw [hkperm.nodup_iff, List.nodup_cons]
        exact ⟨fun hin => hkey (hsub _ hin), hnd⟩
      · intro k hk
        rcases List.mem_cons.mp ((hkperm.mem_iff).1 hk) with h | h
        · simp [h]
        · exact List.mem_cons_of_mem _ (hsub _ h)
    · -- the heap is full: either discard or replace the worst entry
      rename_i hkey hroom
      split
      · exact ⟨hlen, hnd, hsub⟩
      · rename_i worst tail heq
        split
        · -- replace branch
          have hperm : (heapReplace st.heap ⟨qabs (qsub cfg.target v), v, e⟩).Perm
              (⟨qabs (qsub cfg.target v), v, e⟩ :: tail) := by
            rw [heq]; exact heapReplace_perm _ _ _
          have hkperm : (heapKeys (heapReplace st.heap ⟨qabs (qsub cfg.target v), v, e⟩)).Perm
              (key_repr v :: heapKeys tail) := hperm.map _
          have hkeys_eq : heapKeys st.heap = key_repr worst.v :: heapKeys tail := by
            rw [heq]; rfl
          have hnd' : key_repr worst.v ∉ heapKeys tail ∧ (heapKeys tail).Nodup := by
            have := hnd
            rw [hkeys_eq, List.nodup_cons] at this
            exact this
          refine ⟨?_, ?_, ?_⟩
          · rw [hperm.length_eq]
            have : st.heap.length = tail.length + 1 := by rw [heq]; rfl
            simpa [this] using hlen
          · rw [hkperm.nodup_iff, List.nodup_cons]
            refine ⟨fun hin => hkey (hsub _ ?_), hnd'.2⟩
            rw [hkeys_eq]
            exact List.mem_cons_of_mem _ hin
          · intro k hk
            rcases List.mem_cons.mp ((hkperm.mem_iff).1 hk) with h | h
            · simp [h]
            · have hks : k ∈ st.saved := by
                refine hsub _ ?_
                rw [hkeys_eq]
                exact List.mem_cons_of_mem _ h
              have hkne : k ≠ key_repr worst.v := fun habs => hnd'.1 (habs ▸ h)
              exact List.mem_cons_of_mem _ ((List.mem_erase_of_ne hkne).2 hks)
        · exact ⟨hlen, hnd, hsub⟩

/-- The worst retained error, as the maximum over the heap array. -/
def worstErr (l : List Cand) : ℚ := l.foldr (fun c m => max c.err m) 0

theorem worstErr_perm {l₁ l₂ : List Cand} (h : l₁.Perm l₂) : worstErr l₁ = worstErr l₂ := by
  haveI : LeftCommutative fun (c : Cand) (m : ℚ) => max c.err m :=
    ⟨fun a b m => max_left_comm a.err b.err m⟩
  exact h.foldr_eq 0

/-- Once the heap is full, one `considerValue` call keeps it full and
never increases the worst retained error. -/
theorem considerValue_full (cfg : Config) (v : Option ℚ) (e : String) (st : SearchState)
    (hfull : st.heap.length = cfg.keep_top) :
    (considerValue cfg v e st).heap.length = cfg.keep_top ∧
      worstErr (considerValue cfg v e st).heap ≤ worstErr st.heap := by
  cases v with
  | none => exact ⟨hfull, le_refl _⟩
  | some v =>
    rw [considerValue]
    split
    · exact ⟨hfull, le_refl _⟩
    split
    · exact ⟨hfull, le_refl _⟩
    split
    · exact ⟨hfull, le_refl _⟩
    split
    · rename_i hroom
      omega
    · split
      · exact ⟨hfull, le_refl _⟩
      · rename_i worst tail heq
        split
        · rename_i hlt
          have hperm : (heapReplace st.heap ⟨qabs (qsub cfg.target v), v, e⟩).Perm
              (⟨qabs (qsub cfg.target v), v, e⟩ :: tail) := by
            rw [heq]; exact heapReplace_perm _ _ _
          constructor
          · rw [hperm.length_eq, List.length_cons]
            have : st.heap.length = tail.length + 1 := by rw [heq]; rfl
            omega
          · rw [worstErr_perm hperm, worstErr_perm (show st.heap.Perm (worst :: tail) by
              rw [heq])]
            show max (qabs (qsub cfg.target v)) (worstErr tail) ≤ max worst.err (worstErr tail)
            exact max_le_max (le_of_lt hlt) (le_refl _)
        · exact ⟨hfull, le_refl _⟩

/-! ## Generic preservation: every heap/saved mutation of a run goes
through `considerValue`, so any property of `(heap, saved)` preserved by
`considerValue` is an invariant of the whole search -/

section Preservation

variable (cfg : Config) (Φ : List Cand → List (ℤ × ℤ) → Prop)

/-- Shorthand: `Φ` holds of a state's heap and dedup set. -/
def PhiAt (st : SearchState) : Prop := Φ st.heap st.saved

theorem considerFold_pres
    (hcv : ∀ (v : Option ℚ) (e : String) (st : SearchState),
      PhiAt Φ st → PhiAt Φ (considerValue cfg v e st)) :
    ∀ (gens : List Entry) (st : SearchState), PhiAt Φ st →
      PhiAt Φ (considerFold cfg st gens) := by
  intro gens
  induction gens with
  | nil => intro st h; exact h
  | cons e rest ih =>
    intro st h
    rw [considerFold]
    exact ih _ (hcv e.v e.expr st h)

theorem atomsLoop_pres
    (hcv : ∀ (v : Option ℚ) (e : String) (st : SearchState),
      PhiAt Φ st → PhiAt Φ (considerValue cfg v e st)) (d : Option ℕ) :
    ∀ (items : List Entry) (st : SearchState), PhiAt Φ st →
      PhiAt Φ (atomsLoop cfg d items st).1 := by
  intro items
  induction items with
  | nil => intro st h; exact h
  | cons e rest ih =>
    intro st h
    rw [atomsLoop]
    split
    · exact h
    · rcases hres : atomsLoop cfg d rest (considerValue cfg e.v e.expr (timeCheck d st).1)
        with ⟨st2, r⟩
      have h2 := ih (considerValue cfg e.v e.expr (timeCheck d st).1)
        (hcv e.v e.expr (timeCheck d st).1 h)
      rw [hres] at h2
      cases r with
      | ok es => simpa [hres] using h2
      | error u => simpa [hres] using h2

theorem unaryLoop_pres
    (hcv : ∀ (v : Option ℚ) (e : String) (st : SearchState),
      PhiAt Φ st → PhiAt Φ (considerValue cfg v e st)) (P : Prims) (d : Option ℕ) :
    ∀ (items : List Entry) (st : SearchState), PhiAt Φ st →
      PhiAt Φ (unaryLoop P cfg d items st).1 := by
  intro items
  induction items with
  | nil => intro st h; exact h
  | cons e rest ih =>
    intro st h
    rw [unaryLoop]
    split
    · exact h
    · cases e.v with
      | none => exact ih _ h
      | some x =>
        rcases hres : unaryLoop P cfg d rest
            (considerFold cfg (timeCheck d st).1 (unaryCombos P cfg x e.expr)) with ⟨st2, r⟩
        have h2 := ih (considerFold cfg (timeCheck d st).1 (unaryCombos P cfg x e.expr))
          (considerFold_pres cfg Φ hcv _ (timeCheck d st).1 h)
        rw [hres] at h2
        cases r with
        | ok es => simpa [hres] using h2
        | error u => simpa [hres] using h2

theorem rightLoop_pres
    (hcv : ∀ (v : Option ℚ) (e : String) (st : SearchState),
      PhiAt Φ st → PhiAt Φ (considerValue cfg v e st)) (P : Prims) (d : Option ℕ) (l : Entry) :
    ∀ (items : List Entry) (st : SearchState), PhiAt Φ st →
      PhiAt Φ (rightLoop P cfg d l items st).1 := by
  intro items
  induction items with
  | nil => intro st h; exact h
  | cons r rest ih =>
    intro st h
    rw [rightLoop]
    split
    · exact h
    · cases hl : l.v with
      | none =>
        cases hr : r.v with
        | none => simp only [hl, hr]; exact ih _ h
        | some rv => simp only [hl, hr]; exact ih _ h
      | some lv =>
        cases hr : r.v with
        | none => simp only [hl, hr]; exact ih _ h
        | some rv =>
          simp only [hl, hr]
          rcases hres : rightLoop P cfg d l rest
              (considerFold cfg (timeCheck d st).1 (pairGen P cfg lv l.expr rv r.expr))
            with ⟨st2, res⟩
          have h2 := ih (considerFold cfg (timeCheck d st).1 (pairGen P cfg lv l.expr rv r.expr))
            (considerFold_pres cfg Φ hcv _ (timeCheck d st).1 h)
          rw [hres] at h2
          cases res with
          | ok es => simpa [hres] using h2
          | error u => simpa [hres] using h2

theorem leftLoop_pres
    (hcv : ∀ (v : Option ℚ) (e : String) (st : SearchState),
      PhiAt Φ st → PhiAt Φ (considerValue cfg v e st)) (P : Prims) (d : Option ℕ)
    (rs : List Entry) :
    ∀ (items : List Entry) (st : SearchState), PhiAt Φ st →
      PhiAt Φ (leftLoop P cfg d rs items st).1 := by
  intro items
  induction items with
  | nil => intro st h; exact h
  | cons l rest ih =>
    intro st h
    rw [leftLoop]
    split
    · exact h
    · rcases hr : rightLoop P cfg d l rs (timeCheck d st).1 with ⟨st1, r1⟩
      have h1 := rightLoop_pres cfg Φ hcv P d l rs (timeCheck d st).1 h
      rw [hr] at h1
      cases r1 with
      | error u => simpa [hr] using h1
      | ok gs =>
        rcases hres : leftLoop P cfg d rs rest st1 with ⟨st2, r2⟩
        have h2 := ih st1 h1
        rw [hres] at h2
        cases r2 with
        | ok es => simpa [hr, hres] using h2
        | error u => simpa [hr, hres] using h2

theorem splitsLoop_pres
    (hcv : ∀ (v : Option ℚ) (e : String) (st : SearchState),
      PhiAt Φ st → PhiAt Φ (considerValue cfg v e st)) (P : Prims) (d : Option ℕ)
    (enum : ℕ → SearchState → SearchState × Except Unit (List Entry))
    (henum : ∀ (c : ℕ) (st : SearchState), PhiAt Φ st → PhiAt Φ (enum c st).1) :
    ∀ (splits : List (ℕ × ℕ)) (st : SearchState), PhiAt Φ st →
      PhiAt Φ (splitsLoop P cfg d enum splits st).1 := by
  intro splits
  induction splits with
  | nil => intro st h; exact h
  | cons ab rest ih =>
    intro st h
    rcases ab with ⟨a, b⟩
    rw [splitsLoop]
    rcases ha : enum a st with ⟨st1, r1⟩
    have h1 := henum a st h
    rw [ha] at h1
    cases r1 with
    | error u => simpa [ha] using h1
    | ok ls =>
      rcases hb : enum b st1 with ⟨st2, r2⟩
      have h2 := henum b st1 h1
      rw [hb] at h2
      cases r2 with
      | error u => simpa [ha, hb] using h2
      | ok rs =>
        rcases hll : leftLoop P cfg d rs ls st2 with ⟨st3, r3⟩
        have h3 := leftLoop_pres cfg Φ hcv P d rs ls st2 h2
        rw [hll] at h3
        cases r3 with
        | error u => simpa [ha, hb, hll] using h3
        | ok gs =>
          rcases hsp : splitsLoop P cfg d enum rest st3 with ⟨st4, r4⟩
          have h4 := ih st3 h3
          rw [hsp] at h4
          cases r4 with
          | ok es => simpa [ha, hb, hll, hsp] using h4
          | error u => simpa [ha, hb, hll, hsp] using h4

theorem enumBody_pres
    (hcv : ∀ (v : Option ℚ) (e : String) (st : SearchState),
      PhiAt Φ st → PhiAt Φ (considerValue cfg v e st)) (P : Prims) (d : Option ℕ)
    (enumPrev : ℕ → SearchState → SearchState × Except Unit (List Entry))
    (henum : ∀ (c : ℕ) (st : SearchState), PhiAt Φ st → PhiAt Φ (enumPrev c st).1)
    (cost : ℕ) (st : SearchState) (h : PhiAt Φ st) :
    PhiAt Φ (enumBody P cfg d enumPrev cost st).1 := by
  rw [enumBody]
  split
  · exact h
  · split
    · exact h
    · split
      · exact h
      · split
        · rcases ha : atomsLoop cfg d (atomEntries cfg) (timeCheck d st).1 with ⟨st1, r1⟩
          have h1 := atomsLoop_pres cfg Φ hcv d (atomEntries cfg) (timeCheck d st).1 h
          rw [ha] at h1
          cases r1 with
          | error u => simpa [ha] using h1
          | ok rs => simpa [ha] using h1
        · rcases hp : enumPrev (cost - 1) (timeCheck d st).1 with ⟨st1, r1⟩
          have h1 := henum (cost - 1) (timeCheck d st).1 h
          rw [hp] at h1
          cases r1 with
          | error u => exact h1
          | ok prev =>
            rcases hu : unaryLoop P cfg d prev st1 with ⟨st2, r2⟩
            have h2 := unaryLoop_pres cfg Φ hcv P d prev st1 h1
            rw [hu] at h2
            cases r2 with
            | error u => simpa [hu] using h2
            | ok r1s =>
              rcases hs : splitsLoop P cfg d enumPrev (splitPairs cost) st2 with ⟨st3, r3⟩
              have h3 := splitsLoop_pres cfg Φ hcv P d enumPrev henum (splitPairs cost) st2 h2
              rw [hs] at h3
              cases r3 with
              | error u => simpa [hu, hs] using h3
              | ok r2s => simpa [hu, hs] using h3

theorem enumerateCostF_pres
    (hcv : ∀ (v : Option ℚ) (e : String) (st : SearchState),
      PhiAt Φ st → PhiAt Φ (considerValue cfg v e st)) (P : Prims) (d : Option ℕ) :
    ∀ (fuel cost : ℕ) (st : SearchState), PhiAt Φ st →
      PhiAt Φ (enumerateCostF P cfg d fuel cost st).1 := by
  intro fuel
  induction fuel with
  | zero => intro cost st h; exact h
  | succ fuel ih =>
    intro cost st h
    exact enumBody_pres cfg Φ hcv P d (enumerateCostF P cfg d fuel)
      (fun c st h => ih c st h) cost st h

theorem driverLoop_pres
    (hcv : ∀ (v : Option ℚ) (e : String) (st : SearchState),
      PhiAt Φ st → PhiAt Φ (considerValue cfg v e st)) (P : Prims) (d : Option ℕ) :
    ∀ (levels : List ℕ) (st : SearchState), PhiAt Φ st →
      PhiAt Φ (driverLoop P cfg d levels st) := by
  intro levels
  induction levels with
  | nil => intro st h; exact h
  | cons c rest ih =>
    intro st h
    rw [driverLoop]
    split
    · exact h
    · rcases he : enumerateCost P cfg d c (timeCheck d st).1 with ⟨st1, r1⟩
      have h1 := enumerateCostF_pres cfg Φ hcv P d c c (timeCheck d st).1 h
      rw [show enumerateCostF P cfg d c c (timeCheck d st).1 = enumerateCost P cfg d c
        (timeCheck d st).1 from rfl, he] at h1
      cases r1 with
      | ok rs => simpa [he] using ih st1 h1
      | error u => simpa [he] using h1

theorem runSearch_pres
    (hcv : ∀ (v : Option ℚ) (e : String) (st : SearchState),
      PhiAt Φ st → PhiAt Φ (considerValue cfg v e st)) (P : Prims) (d : Option ℕ)
    (hinit : Φ [] []) :
    PhiAt Φ (runSearch P cfg d) :=
  driverLoop_pres cfg Φ hcv P d _ initState hinit

end Preservation

/-! ## Poll accounting and the quiet clock

`considerValue` never touches the poll counter, the `stopped` flag or
the memo table; with no deadline (`d = none`) no poll fires, and a
deadline that lies beyond all polls a computation performs makes it
behave exactly like `none`. -/

theorem considerValue_ctl (cfg : Config) (v : Option ℚ) (e : String) (st : SearchState) :
    (considerValue cfg v e st).poll = st.poll ∧
      (considerValue cfg v e st).stopped = st.stopped ∧
      (considerValue cfg v e st).memo = st.memo := by
  cases v with
  | none => exact ⟨rfl, rfl, rfl⟩
  | some v =>
    rw [considerValue]
    split
    · exact ⟨rfl, rfl, rfl⟩
    split
    · exact ⟨rfl, rfl, rfl⟩
    split
    · exact ⟨rfl, rfl, rfl⟩
    split
    · exact ⟨rfl, rfl, rfl⟩
    · split
      · exact ⟨rfl, rfl, rfl⟩
      · split
        · exact ⟨rfl, rfl, rfl⟩
        · exact ⟨rfl, rfl, rfl⟩

theorem considerFold_ctl (cfg : Config) :
    ∀ (gens : List Entry) (st : SearchState),
      (considerFold cfg st gens).poll = st.poll ∧
        (considerFold cfg st gens).stopped = st.stopped ∧
        (considerFold cfg st gens).memo = st.memo := by
  intro gens
  induction gens with
  | nil => intro st; exact ⟨rfl, rfl, rfl⟩
  | cons e rest ih =>
    intro st
    rw [considerFold]
    obtain ⟨h1, h2, h3⟩ := ih (considerValue cfg e.v e.expr st)
    obtain ⟨g1, g2, g3⟩ := considerValue_ctl cfg e.v e.expr st
    exact ⟨h1.trans g1, h2.trans g2, h3.trans g3⟩

theorem timeCheck_none (st : SearchState) :
    timeCheck none st = ({ st with poll := st.poll + 1 }, false) := by
  rw [timeCheck]
  simp [fires]

theorem timeCheck_quiet (p : ℕ) (st : SearchState) (h : st.poll < p) :
    timeCheck (some p) st = timeCheck none st := by
  rw [timeCheck, timeCheck]
  simp [fires, Nat.not_le.mpr h]

/-- With no deadline the atom loop completes: it returns all its items,
performs one poll per item, and leaves `stopped` and the memo table
unchanged. -/
theorem atomsLoop_none_spec (cfg : Config) :
    ∀ (items : List Entry) (st : SearchState),
      (atomsLoop cfg none items st).2 = Except.ok items ∧
        (atomsLoop cfg none items st).1.poll = st.poll + items.length ∧
        (atomsLoop cfg none items st).1.stopped = st.stopped ∧
        (atomsLoop cfg none items st).1.memo = st.memo := by
  intro items
  induction items with
  | nil => intro st; exact ⟨rfl, rfl, rfl, rfl⟩
  | cons e rest ih =>
    intro st
    rw [atomsLoop]
    have hf : (timeCheck (none : Option ℕ) st).2 = false := rfl
    rw [hf]
    simp only [Bool.false_eq_true, if_false]
    rcases hres : atomsLoop cfg none rest (considerValue cfg e.v e.expr (timeCheck none st).1)
      with ⟨st2, r⟩
    obtain ⟨i1, i2, i3, i4⟩ := ih (considerValue cfg e.v e.expr (timeCheck none st).1)
    rw [hres] at i1 i2 i3 i4
    obtain ⟨c1, c2, c3⟩ := considerValue_ctl cfg e.v e.expr (timeCheck none st).1
    cases r with
    | ok es =>
      have hes : es = rest := by simpa using i1
      have i2' : st2.poll =
          (considerValue cfg e.v e.expr (timeCheck none st).1).poll + rest.length := i2
      have i3' : st2.stopped =
          (considerValue cfg e.v e.expr (timeCheck none st).1).stopped := i3
      have i4' : st2.memo =
          (considerValue cfg e.v e.expr (timeCheck none st).1).memo := i4
      have c1' : (considerValue cfg e.v e.expr (timeCheck none st).1).poll = st.poll + 1 := by
        rw [c1]; rfl
      have c2' : (considerValue cfg e.v e.expr (timeCheck none st).1).stopped = st.stopped := by
        rw [c2]
        show (st.stopped || false) = st.stopped
        simp
      have c3' : (considerValue cfg e.v e.expr (timeCheck none st).1).memo = st.memo := by
        rw [c3]; rfl
      refine ⟨?_, ?_, ?_, ?_⟩
      · show Except.ok (e :: es) = Except.ok (e :: rest)
        rw [hes]
      · show st2.poll = st.poll + (e :: rest).length
        rw [i2', c1', List.length_cons]
        omega
      · show st2.stopped = st.stopped
        rw [i3', c2']
      · show st2.memo = st.memo
        rw [i4', c3']
    | error u => simp at i1

/-- A deadline beyond every poll the atom loop performs is equivalent to
no deadline. -/
theorem atomsLoop_quiet (cfg : Config) (p : ℕ) :
    ∀ (items : List Entry) (st : SearchState), st.poll + items.length ≤ p →
      atomsLoop cfg (some p) items st = atomsLoop cfg none items st := by
  intro items
  induction items with
  | nil => intro st _; rfl
  | cons e rest ih =>
    intro st hp
    have hlt : st.poll < p := by
      have := List.length_cons e rest
      omega
    rw [atomsLoop, atomsLoop, timeCheck_quiet p st hlt]
    have hf : (timeCheck (none : Option ℕ) st).2 = false := rfl
    rw [hf]
    simp only [Bool.false_eq_true, if_false]
    have hpoll : (considerValue cfg e.v e.expr (timeCheck none st).1).poll = st.poll + 1 := by
      rw [(considerValue_ctl cfg e.v e.expr _).1]
      rfl
    rw [ih (considerValue cfg e.v e.expr (timeCheck none st).1)
      (by rw [hpoll]; rw [List.length_cons] at hp; omega)]

/-! ## Characterisation of a completed level 1 -/

theorem memoLookup_append (c : ℕ) (r : List Entry) :
    ∀ (m : List (ℕ × List Entry)), memoLookup m c = none →
      memoLookup (m ++ [(c, r)]) c = some r := by
  intro m
  induction m with
  | nil =>
    intro _
    show memoLookup [(c, r)] c = some r
    rw [memoLookup]
    simp
  | cons p rest ih =>
    intro hm
    rcases p with ⟨c', r'⟩
    by_cases h : c' = c
    · rw [memoLookup, if_pos h] at hm
      simp at hm
    · show memoLookup ((c', r') :: (rest ++ [(c, r)])) c = some r
      rw [memoLookup, if_neg h]
      apply ih
      rw [memoLookup, if_neg h] at hm
      exact hm

theorem atomEntries_length (cfg : Config) :
    (atomEntries cfg).length = cfg.N + cfg.consts.length := by
  simp [atomEntries]

/-- With no deadline, `enumerateCost(1)` on a fresh level completes and
produces exactly the atoms, memoising them. -/
theorem enumCost1_none_spec (P : Prims) (cfg : Config) (st : SearchState)
    (hst : st.stopped = false) (hm : memoLookup st.memo 1 = none) :
    (enumerateCost P cfg none 1 st).2 = Except.ok (atomEntries cfg) ∧
      memoLookup (enumerateCost P cfg none 1 st).1.memo 1 = some (atomEntries cfg) ∧
      (enumerateCost P cfg none 1 st).1.poll = st.poll + 1 + (atomEntries cfg).length ∧
      (enumerateCost P cfg none 1 st).1.stopped = false := by
  have hun : enumerateCost P cfg none 1 st
      = enumBody P cfg none (enumerateCostF P cfg none 0) 1 st := rfl
  have hf : (timeCheck (none : Option ℕ) st).2 = false := rfl
  rw [hun, enumBody, hst, hm]
  simp only [Bool.false_eq_true, if_false, hf, if_pos rfl, if_true]
  rcases hres : atomsLoop cfg none (atomEntries cfg) (timeCheck none st).1 with ⟨st1, r⟩
  obtain ⟨a1, a2, a3, a4⟩ := atomsLoop_none_spec cfg (atomEntries cfg) (timeCheck none st).1
  rw [hres] at a1 a2 a3 a4
  have hr : r = Except.ok (atomEntries cfg) := a1
  subst hr
  have a2' : st1.poll = (timeCheck none st).1.poll + (atomEntries cfg).length := a2
  have a3' : st1.stopped = (timeCheck none st).1.stopped := a3
  have a4' : st1.memo = (timeCheck none st).1.memo := a4
  refine ⟨rfl, ?_, ?_, ?_⟩
  · show memoLookup (st1.memo ++ [(1, atomEntries cfg)]) 1 = some (atomEntries cfg)
    apply memoLookup_append
    rw [a4']
    exact hm
  · show st1.poll = st.poll + 1 + (atomEntries cfg).length
    rw [a2']
    rfl
  · show st1.stopped = false
    rw [a3']
    show (st.stopped || false) = false
    rw [hst]
    rfl

/-- A deadline beyond every poll that `enumerateCost(1)` performs is
equivalent to no deadline. -/
theorem enumCost1_quiet (P : Prims) (cfg : Config) (p : ℕ) (st : SearchState)
    (hst : st.stopped = false) (hm : memoLookup st.memo 1 = none)
    (hp : st.poll + 1 + (atomEntries cfg).length ≤ p) :
    enumerateCost P cfg (some p) 1 st = enumerateCost P cfg none 1 st := by
  have hun : ∀ d, enumerateCost P cfg d 1 st
      = enumBody P cfg d (enumerateCostF P cfg d 0) 1 st := fun _ => rfl
  rw [hun, hun, enumBody, enumBody, hst, hm]
  have hlt : st.poll < p := by omega
  have htc : timeCheck (some p) st = timeCheck none st := timeCheck_quiet p st hlt
  have hf : (timeCheck (none : Option ℕ) st).2 = false := rfl
  rw [htc]
  simp only [Bool.false_eq_true, if_false, hf, if_pos rfl, if_true]
  rw [atomsLoop_quiet cfg p (atomEntries cfg) (timeCheck none st).1 (by
    have : (timeCheck (none : Option ℕ) st).1.poll = st.poll + 1 := rfl
    rw [this]
    omega)]

/-! ## With no deadline, every enumeration call returns normally -/

theorem rightLoop_none_ok (P : Prims) (cfg : Config) (l : Entry) :
    ∀ (items : List Entry) (st : SearchState),
      ∃ es, (rightLoop P cfg none l items st).2 = Except.ok es := by
  intro items
  induction items with
  | nil => intro st; exact ⟨[], rfl⟩
  | cons r rest ih =>
    intro st
    rw [rightLoop]
    have hf : (timeCheck (none : Option ℕ) st).2 = false := rfl
    rw [hf]
    simp only [Bool.false_eq_true, if_false]
    cases hl : l.v with
    | none =>
      cases hr : r.v with
      | none => simpa [hl, hr] using ih _
      | some rv => simpa [hl, hr] using ih _
    | some lv =>
      cases hr : r.v with
      | none => simpa [hl, hr] using ih _
      | some rv =>
        simp only [hl, hr]
        rcases hres : rightLoop P cfg none l rest
            (considerFold cfg (timeCheck none st).1 (pairGen P cfg lv l.expr rv r.expr))
          with ⟨st2, res⟩
        obtain ⟨es, hes⟩ := ih (considerFold cfg (timeCheck none st).1
          (pairGen P cfg lv l.expr rv r.expr))
        rw [hres] at hes
        have : res = Except.ok es := hes
        subst this
        exact ⟨pairGen P cfg lv l.expr rv r.expr ++ es, rfl⟩

theorem leftLoop_none_ok (P : Prims) (cfg : Config) (rs : List Entry) :
    ∀ (items : List Entry) (st : SearchState),
      ∃ es, (leftLoop P cfg none rs items st).2 = Except.ok es := by
  intro items
  induction items with
  | nil => intro st; exact ⟨[], rfl⟩
  | cons l rest ih =>
    intro st
    rw [leftLoop]
    have hf : (timeCheck (none : Option ℕ) st).2 = false := rfl
    rw [hf]
    simp only [Bool.false_eq_true, if_false]
    rcases hr : rightLoop P cfg none l rs (timeCheck none st).1 with ⟨st1, r1⟩
    obtain ⟨gs, hgs⟩ := rightLoop_none_ok P cfg l rs (timeCheck none st).1
    rw [hr] at hgs
    have : r1 = Except.ok gs := hgs
    subst this
    dsimp only
    rcases hres : leftLoop P cfg none rs rest st1 with ⟨st2, r2⟩
    obtain ⟨es, hes⟩ := ih st1
    rw [hres] at hes
    have : r2 = Except.ok es := hes
    subst this
    exact ⟨gs ++ es, rfl⟩

theorem unaryLoop_none_ok (P : Prims) (cfg : Config) :
    ∀ (items : List Entry) (st : SearchState),
      ∃ es, (unaryLoop P cfg none items st).2 = Except.ok es := by
  intro items
  induction items with
  | nil => intro st; exact ⟨[], rfl⟩
  | cons e rest ih =>
    intro st
    rw [unaryLoop]
    have hf : (timeCheck (none : Option ℕ) st).2 = false := rfl
    rw [hf]
    simp only [Bool.false_eq_true, if_false]
    cases he : e.v with
    | none => simpa [he] using ih _
    | some x =>
      simp only [he]
      rcases hres : unaryLoop P cfg none rest
          (considerFold cfg (timeCheck none st).1 (unaryCombos P cfg x e.expr)) with ⟨st2, r⟩
      obtain ⟨es, hes⟩ := ih (considerFold cfg (timeCheck none st).1 (unaryCombos P cfg x e.expr))
      rw [hres] at hes
      have : r = Except.ok es := hes
      subst this
      exact ⟨unaryCombos P cfg x e.expr ++ es, rfl⟩

theorem splitsLoop_none_ok (P : Prims) (cfg : Config)
    (enum : ℕ → SearchState → SearchState × Except Unit (List Entry))
    (henum : ∀ (c : ℕ) (st : SearchState), ∃ es, (enum c st).2 = Except.ok es) :
    ∀ (splits : List (ℕ × ℕ)) (st : SearchState),
      ∃ es, (splitsLoop P cfg none enum splits st).2 = Except.ok es := by
  intro splits
  induction splits with
  | nil => intro st; exact ⟨[], rfl⟩
  | cons ab rest ih =>
    intro st
    rcases ab with ⟨a, b⟩
    rw [splitsLoop]
    rcases ha : enum a st with ⟨st1, r1⟩
    obtain ⟨ls, hls⟩ := henum a st
    rw [ha] at hls
    have : r1 = Except.ok ls := hls
    subst this
    dsimp only
    rcases hb : enum b st1 with ⟨st2, r2⟩
    obtain ⟨rs, hrs⟩ := henum b st1
    rw [hb] at hrs
    have : r2 = Except.ok rs := hrs
    subst this
    dsimp only
    rcases hll : leftLoop P cfg none rs ls st2 with ⟨st3, r3⟩
    obtain ⟨gs, hgs⟩ := leftLoop_none_ok P cfg rs ls st2
    rw [hll] at hgs
    have : r3 = Except.ok gs := hgs
    subst this
    dsimp only
    rcases hsp : splitsLoop P cfg none enum rest st3 with ⟨st4, r4⟩
    obtain ⟨es, hes⟩ := ih st3
    rw [hsp] at hes
    have : r4 = Except.ok es := hes
    subst this
    exact ⟨gs ++ es, rfl⟩

theorem enumerateCostF_none_ok (P : Prims) (cfg : Config) :
    ∀ (fuel cost : ℕ) (st : SearchState),
      ∃ es, (enumerateCostF P cfg none fuel cost st).2 = Except.ok es := by
  intro fuel
  induction fuel with
  | zero => intro cost st; exact ⟨[], rfl⟩
  | succ fuel ih =>
    intro cost st
    show ∃ es, (enumBody P cfg none (enumerateCostF P cfg none fuel) cost st).2 = Except.ok es
    rw [enumBody]
    split
    · exact ⟨[], rfl⟩
    · split
      · rename_i r _
        exact ⟨r, rfl⟩
      · have hf : (timeCheck (none : Option ℕ) st).2 = false := rfl
        rw [hf]
        simp only [Bool.false_eq_true, if_false]
        split
        · rcases ha : atomsLoop cfg none (atomEntries cfg) (timeCheck none st).1 with ⟨st1, r1⟩
          obtain ⟨a1, _, _, _⟩ := atomsLoop_none_spec cfg (atomEntries cfg) (timeCheck none st).1
          rw [ha] at a1
          have : r1 = Except.ok (atomEntries cfg) := a1
          subst this
          exact ⟨atomEntries cfg, rfl⟩
        · rcases hp : enumerateCostF P cfg none fuel (cost - 1) (timeCheck none st).1
            with ⟨st1, r1⟩
          obtain ⟨prev, hprev⟩ := ih (cost - 1) (timeCheck none st).1
          rw [hp] at hprev
          have : r1 = Except.ok prev := hprev
          subst this
          dsimp only
          rcases hu : unaryLoop P cfg none prev st1 with ⟨st2, r2⟩
          obtain ⟨r1s, hr1s⟩ := unaryLoop_none_ok P cfg prev st1
          rw [hu] at hr1s
          have : r2 = Except.ok r1s := hr1s
          subst this
          dsimp only
          rcases hs : splitsLoop P cfg none (enumerateCostF P cfg none fuel)
              (splitPairs cost) st2 with ⟨st3, r3⟩
          obtain ⟨r2s, hr2s⟩ := splitsLoop_none_ok P cfg (enumerateCostF P cfg none fuel)
            (fun c st => ih c st) (splitPairs cost) st2
          rw [hs] at hr2s
          have : r3 = Except.ok r2s := hr2s
          subst this
          exact ⟨r1s ++ r2s, rfl⟩

/-- With no deadline the driver processes level lists compositionally. -/
theorem driverLoop_none_append (P : Prims) (cfg : Config) :
    ∀ (l1 l2 : List ℕ) (st : SearchState),
      driverLoop P cfg none (l1 ++ l2) st =
        driverLoop P cfg none l2 (driverLoop P cfg none l1 st) := by
  intro l1
  induction l1 with
  | nil => intro l2 st; rfl
  | cons c rest ih =>
    intro l2 st
    show driverLoop P cfg none (c :: (rest ++ l2)) st = _
    rw [driverLoop]
    conv_rhs => rw [driverLoop]
    have hf : (timeCheck (none : Option ℕ) st).2 = false := rfl
    rw [hf]
    simp only [Bool.false_eq_true, if_false]
    rcases he : enumerateCost P cfg none c (timeCheck none st).1 with ⟨st1, r1⟩
    obtain ⟨es, hes⟩ := enumerateCostF_none_ok P cfg c c (timeCheck none st).1
    rw [show enumerateCostF P cfg none c c (timeCheck none st).1
      = enumerateCost P cfg none c (timeCheck none st).1 from rfl, he] at hes
    have : r1 = Except.ok es := hes
    subst this
    dsimp only
    exact ih l2 st1

/-! ## The final sort is a permutation of the heap, ascending by error -/

theorem insCand_perm (x : Cand) : ∀ (l : List Cand), (insCand x l).Perm (x :: l) := by
  intro l
  induction l with
  | nil => exact List.Perm.refl _
  | cons y rest ih =>
    rw [insCand]
    split
    · exact (ih.cons y).trans (List.Perm.swap x y rest)
    · exact List.Perm.refl _

theorem sortByErr_perm : ∀ (l : List Cand), (sortByErr l).Perm l := by
  intro l
  induction l with
  | nil => exact List.Perm.refl _
  | cons x rest ih =>
    show (insCand x (sortByErr rest)).Perm (x :: rest)
    exact (insCand_perm x (sortByErr rest)).trans (ih.cons x)

theorem insCand_sorted (x : Cand) :
    ∀ (l : List Cand), l.Pairwise (fun a b => a.err ≤ b.err) →
      (insCand x l).Pairwise (fun a b => a.err ≤ b.err) := by
  intro l
  induction l with
  | nil => intro _; simp [insCand]
  | cons y rest ih =>
    intro h
    rw [List.pairwise_cons] at h
    rw [insCand]
    split
    · rename_i hlt
      rw [List.pairwise_cons]
      refine ⟨?_, ih h.2⟩
      intro z hz
      rcases List.mem_cons.mp ((insCand_perm x rest).mem_iff.1 hz) with hzx | hzr
      · rw [hzx]; exact le_of_lt hlt
      · exact h.1 z hzr
    · rename_i hnlt
      rw [List.pairwise_cons]
      refine ⟨?_, List.pairwise_cons.mpr h⟩
      intro z hz
      rcases List.mem_cons.mp hz with hzy | hzr
      · rw [hzy]; exact le_of_not_lt hnlt
      · exact le_trans (le_of_not_lt hnlt) (h.1 z hzr)

theorem sortByErr_sorted : ∀ (l : List Cand),
    (sortByErr l).Pairwise (fun a b => a.err ≤ b.err) := by
  intro l
  induction l with
  | nil => simp [sortByErr]
  | cons x rest ih =>
    show (insCand x (sortByErr rest)).Pairwise (fun a b => a.err ≤ b.err)
    exact insCand_sorted x (sortByErr rest) ih

/-! ## Concrete configurations for counterexamples and witnesses -/

/-- A run with two integer atoms and a near-zero constant `c = 1e-13`
(within the default `epsilon = 1e-12`), target `2`, operators
`+ - * /`, three cost levels. -/
def cfgC1 : Config :=
  { N := 2, target := qofN 2, consts := [("c", mkRat 1 (10 ^ 13))],
    use_sin := false, use_cos := false, use_tan := false, use_exp := false, use_ln := false,
    use_sqrt := false, use_neg := false, use_pow := false, keep_side := KeepSide.both,
    max_cost := 3, keep_top := 10, epsilon := mkRat 1 (10 ^ 12) }

/-- A run with one atom and only negation enabled, target `1`. -/
def cfgC3 : Config :=
  { N := 1, target := qofN 1, consts := [],
    use_sin := false, use_cos := false, use_tan := false, use_exp := false, use_ln := false,
    use_sqrt := false, use_neg := true, use_pow := false, keep_side := KeepSide.both,
    max_cost := 2, keep_top := 5, epsilon := mkRat 1 (10 ^ 12) }

/-- A one-level run with ten atoms and target `6`, producing several
pairs of equal-error candidates. -/
def cfgC4 : Config :=
  { N := 10, target := qofN 6, consts := [],
    use_sin := false, use_cos := false, use_tan := false, use_exp := false, use_ln := false,
    use_sqrt := false, use_neg := false, use_pow := false, keep_side := KeepSide.both,
    max_cost := 1, keep_top := 10, epsilon := mkRat 1 (10 ^ 12) }

/-- A configuration with every unary function enabled. -/
def cfgAllUn : Config :=
  { N := 2, target := qofN 3, consts := [],
    use_sin := true, use_cos := true, use_tan := true, use_exp := true, use_ln := true,
    use_sqrt := true, use_neg := true, use_pow := false, keep_side := KeepSide.both,
    max_cost := 6, keep_top := 10, epsilon := mkRat 1 (10 ^ 12) }

/-! ## Claim theorems -/

set_option maxRecDepth 400000 in
/-- C1, counterexample.  The identity pruning inspects only the right
element `R` of the enumerated pair, while `-` and `/` are generated in
both orders; from the pair `(L, R) = (c, 2)` with `c = 1e-13` and
`|c| ≤ epsilon` the swapped order produces the subtraction `(2 - c)` of
a near-zero operand, and the `cfgC1` run retains it in the final result
set — refuting the claim that no retained expression is of the form
`(X - Y)` with `|Y.value| ≤ epsilon`. -/
theorem claim1_counterexample :
    (opGen dummyPrims cfgC1.epsilon BinOp.bsub (mkRat 1 (10 ^ 13)) "c" (qofN 2) "2").map
        (fun en => en.expr) = ["(c - 2)", "(2 - c)"] ∧
      qabs (mkRat 1 (10 ^ 13)) ≤ cfgC1.epsilon ∧
      (⟨mkRat 1 (10 ^ 13), mkRat 19999999999999 (10 ^ 13), "(2 - c)"⟩ : Cand) ∈
        (generateEnumerations dummyPrims cfgC1 none).results := by
  refine ⟨by decide, by decide, by decide⟩

/-- C1, amended.  What the code guarantees: for every enumerated pair
`(L, R)`, when `|R.value| ≤ epsilon` the operators `+` and `-` generate
no combination at all from that pair (in either order), and when
`|R.value - 1| ≤ epsilon` the operators `*` and `/` generate none; the
pruning never inspects the left element, so near-identity operands
entering through the `L` position survive (as the counterexample
shows). -/
theorem claim1_amended (P : Prims) (eps lv rv : ℚ) (le re : String) :
    (qabs rv ≤ eps →
      opGen P eps BinOp.badd lv le rv re = [] ∧ opGen P eps BinOp.bsub lv le rv re = []) ∧
    (qabs (qsub rv (qofN 1)) ≤ eps →
      opGen P eps BinOp.bmul lv le rv re = [] ∧ opGen P eps BinOp.bdiv lv le rv re = []) := by
  constructor
  · intro h
    constructor <;> simp [opGen, identitySkip, h]
  · intro h
    constructor <;> simp [opGen, identitySkip, h]

set_option maxRecDepth 400000 in
/-- Witness for the amended C1 at a concrete input. -/
theorem claim1_witness :
    qabs (mkRat 1 (10 ^ 13)) ≤ mkRat 1 (10 ^ 12) ∧
      opGen dummyPrims (mkRat 1 (10 ^ 12)) BinOp.bsub (qofN 2) "2" (mkRat 1 (10 ^ 13)) "c"
        = [] :=
  ⟨by decide,
    ((claim1_amended dummyPrims (mkRat 1 (10 ^ 12)) (qofN 2) (mkRat 1 (10 ^ 13)) "2" "c").1
      (by decide)).2⟩

set_option maxRecDepth 400000 in
/-- C3, counterexample.  The worst retained error is not non-increasing
across consecutive completed cost levels: in the `cfgC3` run the heap
holds only the exact atom `1` (worst error `0`) after level 1, and
level 2 adds `-(1)` with error `2` while the heap is below capacity, so
the worst error increases from `0` to `2`. -/
theorem claim3_counterexample :
    worstErr (runSearchTo dummyPrims cfgC3 none 1).heap = 0 ∧
      worstErr (runSearchTo dummyPrims cfgC3 none 2).heap = 2 ∧
      ¬(worstErr (runSearchTo dummyPrims cfgC3 none 2).heap ≤
        worstErr (runSearchTo dummyPrims cfgC3 none 1).heap) := by
  refine ⟨by decide, by decide, by decide⟩

/-- C3, amended.  Once the ResultSet is full (`keep_top` entries), the
worst retained error is non-increasing as cost levels advance: a
candidate only ever replaces the current worst entry when its error is
strictly smaller, so completing one more level cannot increase the
maximum retained error. -/
theorem claim3_amended (P : Prims) (cfg : Config) (k : ℕ)
    (hfull : (runSearchTo P cfg none k).heap.length = cfg.keep_top) :
    worstErr (runSearchTo P cfg none (k + 1)).heap ≤
      worstErr (runSearchTo P cfg none k).heap := by
  have hsplit : List.range' 1 (k + 1) = List.range' 1 k ++ [1 + k] := by
    have : List.range' 1 (k + 1) 1 = List.range' 1 k 1 ++ [1 + 1 * k] :=
      List.range'_concat 1 k
    simpa using this
  have happ : runSearchTo P cfg none (k + 1)
      = driverLoop P cfg none [1 + k] (runSearchTo P cfg none k) := by
    rw [runSearchTo, hsplit, driverLoop_none_append]
    rfl
  rw [happ]
  have hcv : ∀ (v : Option ℚ) (e : String) (st : SearchState),
      PhiAt (fun h _ => h.length = cfg.keep_top ∧
        worstErr h ≤ worstErr (runSearchTo P cfg none k).heap) st →
      PhiAt (fun h _ => h.length = cfg.keep_top ∧
        worstErr h ≤ worstErr (runSearchTo P cfg none k).heap)
        (considerValue cfg v e st) := by
    intro v e st h
    obtain ⟨h1, h2⟩ := h
    obtain ⟨g1, g2⟩ := considerValue_full cfg v e st h1
    exact ⟨g1, le_trans g2 h2⟩
  exact (driverLoop_pres cfg
    (fun h _ => h.length = cfg.keep_top ∧
      worstErr h ≤ worstErr (runSearchTo P cfg none k).heap)
    hcv P none [1 + k] (runSearchTo P cfg none k) ⟨hfull, le_refl _⟩).2

set_option maxRecDepth 400000 in
/-- Witness for the amended C3 at a concrete input (a run whose heap is
full after level 1). -/
theorem claim3_witness :
    (runSearchTo dummyPrims { cfgC3 with keep_top := 1 } none 1).heap.length
        = ({ cfgC3 with keep_top := 1 } : Config).keep_top ∧
      worstErr (runSearchTo dummyPrims { cfgC3 with keep_top := 1 } none 2).heap ≤
        worstErr (runSearchTo dummyPrims { cfgC3 with keep_top := 1 } none 1).heap :=
  ⟨by decide, claim3_amended dummyPrims { cfgC3 with keep_top := 1 } 1 (by decide)⟩

set_option maxRecDepth 400000 in
/-- C4, counterexample.  The final candidate list of the `cfgC4` run has
two adjacent entries with equal error whose texts are not in textual
order (the later one is textually smaller), refuting the claimed
deterministic tie-break by textual form: ties are left in the heap
array's order. -/
theorem claim4_counterexample :
    ((generateEnumerations dummyPrims cfgC4 none).results.getD 1 dCand).err =
        ((generateEnumerations dummyPrims cfgC4 none).results.getD 2 dCand).err ∧
      strLtB ((generateEnumerations dummyPrims cfgC4 none).results.getD 2 dCand).expr
        ((generateEnumerations dummyPrims cfgC4 none).results.getD 1 dCand).expr = true := by
  refine ⟨by decide, by decide⟩

/-- C4, amended.  The final candidate list is sorted ascending by error
(ties keep the heap array's relative order, which the stable final sort
preserves; the whole search is a pure function of the configuration and
the poll deadline, so identical runs give identical output). -/
theorem claim4_amended (P : Prims) (cfg : Config) (d : Option ℕ) :
    ((generateEnumerations P cfg d).results).Pairwise (fun a b => a.err ≤ b.err) :=
  sortByErr_sorted ((runSearch P cfg d).heap)

/-- C5.  The ResultSet invariant: `considerValue` preserves it at every
call (so it holds at every point during a run), and it holds of the
state a whole run reaches — at most `keep_top` entries, and no two
entries whose values agree once quantized by `key_repr` (the
17-significant-digit `toPrecision` key); the final read-out inherits
both bounds. -/
theorem claim5_theorem :
    (∀ (cfg : Config) (v : Option ℚ) (e : String) (st : SearchState),
      Inv cfg st → Inv cfg (considerValue cfg v e st)) ∧
    (∀ (P : Prims) (cfg : Config) (d : Option ℕ),
      Inv cfg (runSearch P cfg d) ∧
        (generateEnumerations P cfg d).results.length ≤ cfg.keep_top ∧
        ((generateEnumerations P cfg d).results.map (fun c => key_repr c.v)).Nodup) := by
  constructor
  · exact considerValue_Inv
  · intro P cfg d
    have hrun : PhiAt (fun h sv => h.length ≤ cfg.keep_top ∧ (heapKeys h).Nodup ∧
        ∀ k ∈ heapKeys h, k ∈ sv) (runSearch P cfg d) :=
      runSearch_pres cfg
        (fun h sv => h.length ≤ cfg.keep_top ∧ (heapKeys h).Nodup ∧
          ∀ k ∈ heapKeys h, k ∈ sv)
        (fun v e st h => considerValue_Inv cfg v e st h) P d
        ⟨Nat.zero_le _, List.nodup_nil, by intro k hk; simp [heapKeys] at hk⟩
    have hperm : (sortByErr (runSearch P cfg d).heap).Perm (runSearch P cfg d).heap :=
      sortByErr_perm _
    refine ⟨hrun, ?_, ?_⟩
    · show (sortByErr (runSearch P cfg d).heap).length ≤ cfg.keep_top
      rw [hperm.length_eq]
      exact hrun.1
    · show ((sortByErr (runSearch P cfg d).heap).map (fun c => key_repr c.v)).Nodup
      rw [(hperm.map (fun c => key_repr c.v)).nodup_iff]
      exact hrun.2.1

set_option maxRecDepth 400000 in
/-- Witness for C5's preservation clause at a concrete state. -/
theorem claim5_witness :
    Inv cfgC1 ⟨[⟨1, qofN 2, "2"⟩], [key_repr (qofN 2)], 5, false, 3, []⟩ ∧
      Inv cfgC1 (considerValue cfgC1 (some (qofN 3)) "3"
        ⟨[⟨1, qofN 2, "2"⟩], [key_repr (qofN 2)], 5, false, 3, []⟩) :=
  ⟨by decide, claim5_theorem.1 cfgC1 (some (qofN 3)) "3"
    ⟨[⟨1, qofN 2, "2"⟩], [key_repr (qofN 2)], 5, false, 3, []⟩ (by decide)⟩

/-- C7.  The numeric evaluator is total (the embedding returns an
`Option`, never raising): `ln` is invalid exactly on non-positive
inputs, `sqrt` exactly on negative inputs, `/` exactly on a zero
divisor, `^` exactly when a negative base meets an exponent further
than `1e-9` from every integer or the (rounded-exponent) power exceeds
`1e300` in magnitude or a non-negative-base power exceeds `1e300`;
`sin`, `cos`, `tan`, `exp`, negation, `+`, `-`, `*` always produce a
value (exact rational arithmetic does not overflow, so the
"non-finite result" escape of the claim never fires here). -/
theorem claim7_theorem (P : Prims) (x a b : ℚ) :
    (evalUn P UnOp.uln x = none ↔ x ≤ 0) ∧
    (evalUn P UnOp.usqrt x = none ↔ x < 0) ∧
    (evalUn P UnOp.usin x).isSome = true ∧
    (evalUn P UnOp.ucos x).isSome = true ∧
    (evalUn P UnOp.utan x).isSome = true ∧
    (evalUn P UnOp.uexp x).isSome = true ∧
    (evalUn P UnOp.uneg x).isSome = true ∧
    (evalBin P BinOp.badd a b).isSome = true ∧
    (evalBin P BinOp.bsub a b).isSome = true ∧
    (evalBin P BinOp.bmul a b).isSome = true ∧
    (evalBin P BinOp.bdiv a b = none ↔ b = 0) ∧
    (evalBin P BinOp.bpow a b = none ↔
      ((a < 0 ∧ 1 / 10 ^ 9 < |b - (round b : ℚ)|) ∨
        (a < 0 ∧ |b - (round b : ℚ)| ≤ 1 / 10 ^ 9 ∧ 10 ^ 300 < |a ^ round b|) ∨
        (0 ≤ a ∧ 10 ^ 300 < |P.ppow a b|))) := by
  have e1 : qabs (qsub b (qofZ (qround b))) = |b - (round b : ℚ)| := by
    rw [qabs_eq, qsub_eq, qofZ_eq, qround_eq]
  have e2 : qabs (qzpow a (qround b)) = |a ^ round b| := by
    rw [qabs_eq, qzpow_eq, qround_eq]
  have e3 : qabs (P.ppow a b) = |P.ppow a b| := qabs_eq _
  have e4 : (mkRat 1 (10 ^ 9) : ℚ) = 1 / 10 ^ 9 := by
    rw [Rat.mkRat_eq_divInt, Rat.divInt_eq_div]
    norm_num
  have e5 : (mkRat (10 ^ 300) 1 : ℚ) = 10 ^ 300 := by
    rw [Rat.mkRat_one]
    norm_num
  refine ⟨?_, ?_, rfl, rfl, rfl, rfl, rfl, rfl, rfl, rfl, ?_, ?_⟩
  · rw [evalUn]
    split
    · rename_i hx
      exact iff_of_false (by simp) (not_le.mpr hx)
    · rename_i hx
      exact iff_of_true rfl (not_lt.mp hx)
  · rw [evalUn]
    split
    · rename_i hx
      exact iff_of_false (by simp) (not_lt.mpr hx)
    · rename_i hx
      exact iff_of_true rfl (not_le.mp hx)
  · show (if b = 0 then none else some (qdiv a b)) = none ↔ b = 0
    split
    · rename_i hb
      exact iff_of_true rfl hb
    · rename_i hb
      exact iff_of_false (by simp) hb
  · show safePow P a b = none ↔ _
    rw [safePow]
    simp only [e1, e2, e3, e4, e5]
    by_cases ha : a < 0
    · rw [if_pos ha]
      by_cases h1 : (1 : ℚ) / 10 ^ 9 < |b - (round b : ℚ)|
      · rw [if_pos h1]
        exact iff_of_true rfl (Or.inl ⟨ha, h1⟩)
      · rw [if_neg h1]
        by_cases h2 : (10 : ℚ) ^ 300 < |a ^ round b|
        · rw [if_pos h2]
          exact iff_of_true rfl (Or.inr (Or.inl ⟨ha, le_of_not_lt h1, h2⟩))
        · rw [if_neg h2]
          refine iff_of_false (by simp) ?_
          rintro (⟨_, hh⟩ | ⟨_, _, hh⟩ | ⟨hh, _⟩)
          · exact h1 hh
          · exact h2 hh
          · exact absurd ha (not_lt.mpr hh)
    · rw [if_neg ha]
      have haa : 0 ≤ a := not_lt.mp ha
      by_cases h3 : (10 : ℚ) ^ 300 < |P.ppow a b|
      · rw [if_pos h3]
        exact iff_of_true rfl (Or.inr (Or.inr ⟨haa, h3⟩))
      · rw [if_neg h3]
        refine iff_of_false (by simp) ?_
        rintro (⟨hh, _⟩ | ⟨hh, _, _⟩ | ⟨_, hh⟩)
        · exact ha hh
        · exact ha hh
        · exact h3 hh

/-- C10.  For a negative base and an exponent within `1e-9` of an
integer, `safePow` silently rounds the exponent and returns
`a ^ round b` (when within the overflow bound), not an `a ^ b`. -/
theorem claim10_theorem (P : Prims) (a b : ℚ) (ha : a < 0)
    (h1 : qabs (qsub b (qofZ (qround b))) ≤ mkRat 1 (10 ^ 9))
    (h2 : qabs (qzpow a (qround b)) ≤ mkRat (10 ^ 300) 1) :
    evalBin P BinOp.bpow a b = some (qzpow a (qround b)) ∧
      qzpow a (qround b) = a ^ round b := by
  constructor
  · show safePow P a b = _
    rw [safePow, if_pos ha, if_neg (not_lt.mpr h1), if_neg (not_lt.mpr h2)]
  · rw [qzpow_eq, qround_eq]

set_option maxRecDepth 400000 in
/-- Witness for C10 at the concrete input `a = -2`,
`b = 3 + 1e-10` (within tolerance of the integer `3` but not equal to
it): the evaluator returns `(-2)^3 = -8`. -/
theorem claim10_witness :
    (mkRat (-2) 1 : ℚ) < 0 ∧
      qabs (qsub (mkRat 30000000001 (10 ^ 10)) (qofZ (qround (mkRat 30000000001 (10 ^ 10)))))
        ≤ mkRat 1 (10 ^ 9) ∧
      qabs (qzpow (mkRat (-2) 1) (qround (mkRat 30000000001 (10 ^ 10))))
        ≤ mkRat (10 ^ 300) 1 ∧
      (evalBin dummyPrims BinOp.bpow (mkRat (-2) 1) (mkRat 30000000001 (10 ^ 10))
          = some (qzpow (mkRat (-2) 1) (qround (mkRat 30000000001 (10 ^ 10)))) ∧
        qzpow (mkRat (-2) 1) (qround (mkRat 30000000001 (10 ^ 10)))
          = (mkRat (-2) 1 : ℚ) ^ round ((mkRat 30000000001 (10 ^ 10)) : ℚ)) :=
  ⟨by decide, by decide, by decide,
    claim10_theorem dummyPrims (mkRat (-2) 1) (mkRat 30000000001 (10 ^ 10))
      (by decide) (by decide) (by decide)⟩

/-- C9.  With the budget not yet exceeded and level 1 not yet computed,
`enumerateCost(1)` returns — and memoises — exactly one expression per
integer `1..N` (value the integer, text its decimal literal) followed by
one per named constant (value the mapped number, text the name), nothing
more and nothing less. -/
theorem claim9_theorem (P : Prims) (cfg : Config) (st : SearchState)
    (hst : st.stopped = false) (hm : memoLookup st.memo 1 = none) :
    (enumerateCost P cfg none 1 st).2 = Except.ok
        ((List.range cfg.N).map (fun i => ⟨some (qofN (i + 1)), Nat.repr (i + 1)⟩) ++
          cfg.consts.map (fun c => ⟨some c.2, c.1⟩)) ∧
      memoLookup (enumerateCost P cfg none 1 st).1.memo 1 = some
        ((List.range cfg.N).map (fun i => ⟨some (qofN (i + 1)), Nat.repr (i + 1)⟩) ++
          cfg.consts.map (fun c => ⟨some c.2, c.1⟩)) := by
  obtain ⟨h1, h2, _, _⟩ := enumCost1_none_spec P cfg st hst hm
  exact ⟨h1, h2⟩

set_option maxRecDepth 400000 in
/-- Witness for C9 on the `cfgC1` configuration from the initial
state. -/
theorem claim9_witness :
    initState.stopped = false ∧ memoLookup initState.memo 1 = none ∧
      ((enumerateCost dummyPrims cfgC1 none 1 initState).2 = Except.ok
          ((List.range cfgC1.N).map (fun i => ⟨some (qofN (i + 1)), Nat.repr (i + 1)⟩) ++
            cfgC1.consts.map (fun c => ⟨some c.2, c.1⟩)) ∧
        memoLookup (enumerateCost dummyPrims cfgC1 none 1 initState).1.memo 1 = some
          ((List.range cfgC1.N).map (fun i => ⟨some (qofN (i + 1)), Nat.repr (i + 1)⟩) ++
            cfgC1.consts.map (fun c => ⟨some c.2, c.1⟩))) :=
  ⟨rfl, rfl, claim9_theorem dummyPrims cfgC1 initState (by decide) (by decide)⟩

/-! ### Helpers for C2: which unary texts can coincide -/

theorem mkUnExpr_ln (u : UnOp) (e : String) (h : mkUnExpr u e = "ln(" ++ e ++ ")") :
    u = UnOp.uln := by
  cases u
  case uln => rfl
  case usin =>
    exact absurd (show (some 's' : Option Char) = some 'l' from
      congrArg (fun s => s.data.head?) h) (by decide)
  case ucos =>
    exact absurd (show (some 'c' : Option Char) = some 'l' from
      congrArg (fun s => s.data.head?) h) (by decide)
  case utan =>
    exact absurd (show (some 't' : Option Char) = some 'l' from
      congrArg (fun s => s.data.head?) h) (by decide)
  case uexp =>
    exact absurd (show (some 'e' : Option Char) = some 'l' from
      congrArg (fun s => s.data.head?) h) (by decide)
  case usqrt =>
    exact absurd (show (some 's' : Option Char) = some 'l' from
      congrArg (fun s => s.data.head?) h) (by decide)
  case uneg =>
    exact absurd (show (some '-' : Option Char) = some 'l' from
      congrArg (fun s => s.data.head?) h) (by decide)

theorem mkUnExpr_exp (u : UnOp) (e : String) (h : mkUnExpr u e = "exp(" ++ e ++ ")") :
    u = UnOp.uexp := by
  cases u
  case uexp => rfl
  case usin =>
    exact absurd (show (some 's' : Option Char) = some 'e' from
      congrArg (fun s => s.data.head?) h) (by decide)
  case ucos =>
    exact absurd (show (some 'c' : Option Char) = some 'e' from
      congrArg (fun s => s.data.head?) h) (by decide)
  case utan =>
    exact absurd (show (some 't' : Option Char) = some 'e' from
      congrArg (fun s => s.data.head?) h) (by decide)
  case uln =>
    exact absurd (show (some 'l' : Option Char) = some 'e' from
      congrArg (fun s => s.data.head?) h) (by decide)
  case usqrt =>
    exact absurd (show (some 's' : Option Char) = some 'e' from
      congrArg (fun s => s.data.head?) h) (by decide)
  case uneg =>
    exact absurd (show (some '-' : Option Char) = some 'e' from
      congrArg (fun s => s.data.head?) h) (by decide)

theorem unaryCombos_ln_mem (P : Prims) (cfg : Config) (x : ℚ) (e : String)
    (hln : cfg.use_ln = true) :
    ("ln(" ++ e ++ ")") ∈ (unaryCombos P cfg x e).map (fun en => en.expr) ↔
      is_direct_application e "exp" = false := by
  constructor
  · intro h
    rcases List.mem_map.mp h with ⟨en, hmem, hexpr⟩
    rcases List.mem_filterMap.mp hmem with ⟨u, humem, hu⟩
    by_cases hs : unarySkip u e = true
    · rw [if_pos hs] at hu
      exact absurd hu (by simp)
    · rw [if_neg hs] at hu
      have hen : (⟨evalUn P u x, mkUnExpr u e⟩ : Entry) = en := Option.some.inj hu
      have hue : mkUnExpr u e = "ln(" ++ e ++ ")" := by
        rw [← hexpr, ← hen]
      have huln : u = UnOp.uln := mkUnExpr_ln u e hue
      subst huln
      exact Bool.not_eq_true _ |>.mp hs
  · intro h
    apply List.mem_map.mpr
    refine ⟨⟨evalUn P UnOp.uln x, mkUnExpr UnOp.uln e⟩, ?_, rfl⟩
    apply List.mem_filterMap.mpr
    refine ⟨UnOp.uln, ?_, ?_⟩
    · rw [unaryList, hln]
      simp
    · rw [if_neg ?_]
      show ¬(unarySkip UnOp.uln e = true)
      show ¬(is_direct_application e "exp" = true)
      rw [h]
      simp

theorem unaryCombos_exp_mem (P : Prims) (cfg : Config) (x : ℚ) (e : String)
    (hexp : cfg.use_exp = true) :
    ("exp(" ++ e ++ ")") ∈ (unaryCombos P cfg x e).map (fun en => en.expr) ↔
      is_direct_application e "ln" = false := by
  constructor
  · intro h
    rcases List.mem_map.mp h with ⟨en, hmem, hexpr⟩
    rcases List.mem_filterMap.mp hmem with ⟨u, humem, hu⟩
    by_cases hs : unarySkip u e = true
    · rw [if_pos hs] at hu
      exact absurd hu (by simp)
    · rw [if_neg hs] at hu
      have hen : (⟨evalUn P u x, mkUnExpr u e⟩ : Entry) = en := Option.some.inj hu
      have hue : mkUnExpr u e = "exp(" ++ e ++ ")" := by
        rw [← hexpr, ← hen]
      have huexp : u = UnOp.uexp := mkUnExpr_exp u e hue
      subst huexp
      exact Bool.not_eq_true _ |>.mp hs
  · intro h
    apply List.mem_map.mpr
    refine ⟨⟨evalUn P UnOp.uexp x, mkUnExpr UnOp.uexp e⟩, ?_, rfl⟩
    apply List.mem_filterMap.mpr
    refine ⟨UnOp.uexp, ?_, ?_⟩
    · rw [unaryList, hexp]
      simp
    · rw [if_neg ?_]
      show ¬(unarySkip UnOp.uexp e = true)
      show ¬(is_direct_application e "ln" = true)
      rw [h]
      simp

/-! ### Helpers for C8: the string order is antisymmetric, and what
`opGen` emits per operator class -/

theorem strLtCh_antisymm (s : List Char) : ∀ t : List Char,
    strLtCh s t = false → strLtCh t s = false → s = t := by
  induction s with
  | nil =>
    intro t h1 h2
    cases t with
    | nil => rfl
    | cons b t => rw [strLtCh] at h1; cases h1
  | cons a s ih =>
    intro t h1 h2
    cases t with
    | nil => rw [strLtCh] at h2; cases h2
    | cons b t =>
      rw [strLtCh] at h1 h2
      by_cases hab : a < b
      · rw [if_pos hab] at h1
        cases h1
      · rw [if_neg hab] at h1
        by_cases hba : b < a
        · rw [if_pos hba] at h2
          cases h2
        · rw [if_neg hba] at h1
          rw [if_neg hba, if_neg hab] at h2
          have hab2 : a = b := le_antisymm (not_lt.mp hba) (not_lt.mp hab)
          rw [hab2, ih t h1 h2]

theorem strLtB_antisymm (s t : String) (h1 : strLtB s t = false)
    (h2 : strLtB t s = false) : s = t := by
  cases s with
  | mk ds =>
    cases t with
    | mk dt => exact congrArg String.mk (strLtCh_antisymm ds dt h1 h2)

theorem opGen_comm_ne (P : Prims) (eps : ℚ) (op : BinOp) (lv rv : ℚ)
    (le re : String) (hop : isCommutative op = true)
    (hne : opGen P eps op lv le rv re ≠ []) :
    ¬(rv < lv) ∧ (lv = rv → strLtB re le = false) := by
  by_cases hsk : identitySkip op rv eps = true
  · exfalso
    apply hne
    rw [opGen, if_pos hsk]
  · constructor
    · intro hlt
      apply hne
      rw [opGen, if_neg hsk, hop, decide_eq_true hlt]
      rfl
    · intro hveq
      by_contra hsl
      have hsl' : strLtB re le = true := by
        cases h : strLtB re le
        · exact absurd h hsl
        · rfl
      have hd : decide (rv < lv) = false :=
        decide_eq_false (by subst hveq; exact lt_irrefl lv)
      apply hne
      rw [opGen, if_neg hsk, hop, hd, decide_eq_true hveq, hsl']
      rfl

set_option maxRecDepth 400000 in
/-- C2, counterexample.  The shallow string test of the cancellation
pruning also matches texts that are not applications at all: the binary
expression text `(exp(1) - sin(2))` passes `is_direct_application`
for `exp` (after the one-level parenthesis strip it starts with `exp(`
and ends with `)`), although its outermost operation is the binary `-`,
not an `exp` application; consequently the unary expansion step drops
`ln((exp(1) - sin(2)))`, which is not an identity of any
sub-expression — refuting the final clause of the claim. -/
theorem claim2_counterexample :
    is_direct_application "(exp(1) - sin(2))" "exp" = true ∧
      isTrueApplication "exp" "(exp(1) - sin(2))" = false ∧
      cfgAllUn.use_ln = true ∧
      ¬("ln((exp(1) - sin(2)))" ∈
        (unaryCombos dummyPrims cfgAllUn (qofN 3) "(exp(1) - sin(2))").map
          (fun en => en.expr)) := by
  refine ⟨by decide, by decide, rfl, by decide⟩

/-- C2, amended.  What the unary expansion actually does: with `ln`
enabled it generates `ln(e)` exactly when `is_direct_application e
"exp"` is false, and symmetrically for `exp` over `ln` — where
`is_direct_application` is the shallow string test (strip one layer of
parentheses, one leading `-(...)`, then compare prefix and final
character), which can also match non-applications, so not every pruned
expression is an identity of a shorter sub-expression. -/
theorem claim2_amended (P : Prims) (cfg : Config) (x : ℚ) (e : String) :
    (cfg.use_ln = true →
      (("ln(" ++ e ++ ")") ∈ (unaryCombos P cfg x e).map (fun en => en.expr) ↔
        is_direct_application e "exp" = false)) ∧
    (cfg.use_exp = true →
      (("exp(" ++ e ++ ")") ∈ (unaryCombos P cfg x e).map (fun en => en.expr) ↔
        is_direct_application e "ln" = false)) :=
  ⟨fun hln => unaryCombos_ln_mem P cfg x e hln,
    fun hexp => unaryCombos_exp_mem P cfg x e hexp⟩

set_option maxRecDepth 400000 in
/-- Witness for the amended C2 at a concrete input: on the text
`exp(1)` the `ln` expansion is pruned. -/
theorem claim2_witness :
    cfgAllUn.use_ln = true ∧
      (("ln(" ++ "exp(1)" ++ ")") ∈
          (unaryCombos dummyPrims cfgAllUn (qofN 2) "exp(1)").map (fun en => en.expr) ↔
        is_direct_application "exp(1)" "exp" = false) :=
  ⟨rfl, (claim2_amended dummyPrims cfgAllUn (qofN 2) "exp(1)").1 rfl⟩

/-- C8.  Per operator application to an ordered pair (L, R):
(a) a commutative operator (`+`, `*`) generates anything only when
`(L.v, L.expr)` is lexicographically at most `(R.v, R.expr)` — value
first, then JS string order on the text; (b) consequently a commutative
operator never generates from both orders of a pair unless the two sides
are identical in value and text; (c) a non-commutative operator
(`-`, `/`, `^`), when not identity-skipped, generates exactly the two
orders `L ∘ R` and `R ∘ L`. -/
theorem claim8_theorem (P : Prims) (eps lv rv : ℚ) (le re : String) :
    (∀ op, isCommutative op = true → opGen P eps op lv le rv re ≠ [] →
      lv < rv ∨ (lv = rv ∧ strLtB re le = false)) ∧
    (∀ op, isCommutative op = true → opGen P eps op lv le rv re ≠ [] →
      opGen P eps op rv re lv le ≠ [] → lv = rv ∧ le = re) ∧
    (∀ op, isCommutative op = false → identitySkip op rv eps = false →
      (opGen P eps op lv le rv re).map (fun en => en.expr) =
        [binText le op re, binText re op le]) := by
  refine ⟨?_, ?_, ?_⟩
  · intro op hop hne
    obtain ⟨hnlt, himp⟩ := opGen_comm_ne P eps op lv rv le re hop hne
    rcases lt_or_eq_of_le (not_lt.mp hnlt) with h | h
    · exact Or.inl h
    · exact Or.inr ⟨h, himp h⟩
  · intro op hop h1 h2
    obtain ⟨hnlt1, himp1⟩ := opGen_comm_ne P eps op lv rv le re hop h1
    obtain ⟨hnlt2, himp2⟩ := opGen_comm_ne P eps op rv lv re le hop h2
    have hveq : lv = rv := le_antisymm (not_lt.mp hnlt1) (not_lt.mp hnlt2)
    exact ⟨hveq, strLtB_antisymm le re (himp2 hveq.symm) (himp1 hveq)⟩
  · intro op hop hsk
    cases op
    case badd => exact Bool.noConfusion hop
    case bmul => exact Bool.noConfusion hop
    all_goals
      rw [opGen, hsk]
      rfl

set_option maxRecDepth 400000 in
/-- Witness for C8: for `+` on the pair `(1, "1")`, `(2, "2")` the
canonical-order conclusion holds, and `-` on the same pair generates
exactly both orders. -/
theorem claim8_witness :
    (qofN 1 < qofN 2 ∨ (qofN 1 = qofN 2 ∧ strLtB "2" "1" = false)) ∧
      (opGen dummyPrims (mkRat 1 (10 ^ 12)) BinOp.bsub (qofN 1) "1" (qofN 2) "2").map
          (fun en => en.expr) = ["(1 - 2)", "(2 - 1)"] :=
  ⟨(claim8_theorem dummyPrims (mkRat 1 (10 ^ 12)) (qofN 1) (qofN 2) "1" "2").1
      BinOp.badd (by decide) (by decide),
    (claim8_theorem dummyPrims (mkRat 1 (10 ^ 12)) (qofN 1) (qofN 2) "1" "2").2.2
      BinOp.bsub (by decide) (by decide)⟩

/-- C6.  The wall-clock budget is a normal termination path: when the
deadline fires at the very first poll the run still returns (empty
results, zero count, no exception in the embedding — `driverLoop` is a
total function absorbing the `Timeout` signal); and when the deadline
fires right after cost level 1 completes, the run returns exactly the
candidates accumulated up to that point — the sorted heap of the
deadline-free run truncated to level 1 — for any configuration with at
least one level. -/
theorem claim6_theorem (P : Prims) (cfg : Config) :
    ((generateEnumerations P cfg (some 0)).results = [] ∧
      (generateEnumerations P cfg (some 0)).exprCountTotal = 0) ∧
    (1 ≤ cfg.max_cost →
      (generateEnumerations P cfg (some (cfg.N + cfg.consts.length + 2))).results =
        sortByErr (runSearchTo P cfg none 1).heap) := by
  constructor
  · constructor
    · show sortByErr (runSearch P cfg (some 0)).heap = []
      rw [runSearch, runSearchTo]
      cases hmc : cfg.max_cost with
      | zero => rfl
      | succ m => rfl
    · show (runSearch P cfg (some 0)).exprCount = 0
      rw [runSearch, runSearchTo]
      cases hmc : cfg.max_cost with
      | zero => rfl
      | succ m => rfl
  · intro hmax
    cases hmc : cfg.max_cost with
    | zero => omega
    | succ m =>
      show sortByErr (runSearch P cfg (some (cfg.N + cfg.consts.length + 2))).heap = _
      rw [runSearch, runSearchTo, hmc]
      have htc0 : timeCheck (some (cfg.N + cfg.consts.length + 2)) initState
          = timeCheck none initState := by
        apply timeCheck_quiet
        show 0 < cfg.N + cfg.consts.length + 2
        omega
      have hf : (timeCheck (none : Option ℕ) initState).2 = false := rfl
      have hq : enumerateCost P cfg (some (cfg.N + cfg.consts.length + 2)) 1
            (timeCheck none initState).1
          = enumerateCost P cfg none 1 (timeCheck none initState).1 := by
        apply enumCost1_quiet P cfg (cfg.N + cfg.consts.length + 2)
          (timeCheck none initState).1 rfl rfl
        rw [atomEntries_length]
        show 0 + 1 + 1 + (cfg.N + cfg.consts.length) ≤ cfg.N + cfg.consts.length + 2
        omega
      obtain ⟨s1, s2, s3, s4⟩ :=
        enumCost1_none_spec P cfg (timeCheck none initState).1 rfl rfl
      have hstep : ∀ rest : List ℕ,
          driverLoop P cfg (some (cfg.N + cfg.consts.length + 2)) (1 :: rest) initState
            = driverLoop P cfg (some (cfg.N + cfg.consts.length + 2)) rest
                (enumerateCost P cfg none 1 (timeCheck none initState).1).1 := by
        intro rest
        rw [driverLoop, htc0, hf]
        simp only [Bool.false_eq_true, if_false]
        rw [hq]
        rcases hres : enumerateCost P cfg none 1 (timeCheck none initState).1 with ⟨st1, r⟩
        rw [hres] at s1
        have hrok : r = Except.ok (atomEntries cfg) := s1
        subst hrok
        dsimp only
      have hRHS : runSearchTo P cfg none 1
          = (enumerateCost P cfg none 1 (timeCheck none initState).1).1 := by
        rw [runSearchTo, List.range'_succ, driverLoop, hf]
        simp only [Bool.false_eq_true, if_false]
        rcases hres : enumerateCost P cfg none 1 (timeCheck none initState).1 with ⟨st1, r⟩
        rw [hres] at s1
        have hrok : r = Except.ok (atomEntries cfg) := s1
        subst hrok
        dsimp only
        rfl
      rw [List.range'_succ, hstep]
      cases m with
      | zero =>
        rw [hRHS]
        rfl
      | succ m =>
        have hpoll : (enumerateCost P cfg none 1 (timeCheck none initState).1).1.poll
            = cfg.N + cfg.consts.length + 2 := by
          rw [s3, atomEntries_length]
          show 0 + 1 + 1 + (cfg.N + cfg.consts.length) = cfg.N + cfg.consts.length + 2
          omega
        have hfire : (timeCheck (some (cfg.N + cfg.consts.length + 2))
            (enumerateCost P cfg none 1 (timeCheck none initState).1).1).2 = true := by
          show fires (some (cfg.N + cfg.consts.length + 2))
            (enumerateCost P cfg none 1 (timeCheck none initState).1).1.poll = true
          rw [hpoll, fires]
          exact decide_eq_true (le_refl _)
        rw [List.range'_succ, driverLoop, hfire, hRHS]
        rfl

set_option maxRecDepth 400000 in
/-- Witness for C6 on the `cfgC1` configuration. -/
theorem claim6_witness :
    ((generateEnumerations dummyPrims cfgC1 (some 0)).results = [] ∧
      (generateEnumerations dummyPrims cfgC1 (some 0)).exprCountTotal = 0) ∧
    (1 ≤ cfgC1.max_cost ∧
      (generateEnumerations dummyPrims cfgC1
          (some (cfgC1.N + cfgC1.consts.length + 2))).results =
        sortByErr (runSearchTo dummyPrims cfgC1 none 1).heap) :=
  ⟨(claim6_theorem dummyPrims cfgC1).1,
    by decide, (claim6_theorem dummyPrims cfgC1).2 (by decide)⟩

end EnumApp
